import Mathlib

/-!
The tinydng viewer: RAW bit-depth decoding and linear develop.

A shallow embedding of `examples/viewer/main.cc` (functions `swap2`,
`decode12_hdr`, `decode14_hdr`, `decode16_hdr`, `DecodeToHDR`, `Develop`)
and theorems about it.

Modelling conventions.

* `unsigned char` is `Byte = Fin 256`; a buffer `unsigned char* data` is a
  `List Byte`.  A load `data[i]` with `i` outside the list is undefined
  behaviour in C++ and is the outcome `Outcome.outOfBounds` here.  The
  source has no bounds check and no early exit: after such a load the
  compiled program goes on with whatever the load gave.  The model does not
  follow it there, so `outOfBounds` says that the access happens and
  nothing about what is returned afterwards.
* `int` and `size_t` index arithmetic is carried out in `Nat`: widths and
  heights are non-negative and the products stay within `int`.
* `unsigned int` values built by the decoders stay below `2^24`, so no
  wrap-around occurs; `(float)val` is exact for such values and the decoded
  image is kept as the integers themselves.
* The arithmetic of `Develop` is float arithmetic in the source; it is
  carried out exactly, in `ℚ`, so rounding is not part of the model.  When
  the white level equals the black level the float division `1.0f / 0`
  gives an infinity, which `ℚ` does not have: the call still returns, and
  the values the model gives for that one case are not those of the source.
* The 16-bit decoder and `swap2` read and write 16-bit objects byte by
  byte; the byte order of the host is a parameter, `Endian`.
* The pragma `omp parallel for` is read as the sequential loop it annotates.
-/

namespace TinyDNG

/-- An `unsigned char`. -/
abbrev Byte := Fin 256

/-- Error kinds that the specification names for this core.  The source has
no error values; they are here so that "the call reports error `e`" can be
stated about an outcome. -/
inductive ErrorKind where
  | UnsupportedBitDepth
  | BufferTooSmall
  | InvalidCalibration
  deriving DecidableEq, Repr

/-- What a call does, as observed by its caller. -/
inductive Outcome (α : Type) where
  /-- the call returns normally, leaving this state or value -/
  | returned (a : α)
  /-- the call hands an error back to its caller -/
  | reported (e : ErrorKind)
  /-- the call loads or stores outside a buffer (undefined behaviour); the
  model stops at that access and does not say what the call does after it -/
  | outOfBounds
  /-- the call ends the process (`assert(0); exit(-1);`) -/
  | terminated
  deriving DecidableEq, Repr

/-- Sequencing of calls: the first outcome that is not a normal return ends
the computation. -/
def Outcome.bind {α β : Type} : Outcome α → (α → Outcome β) → Outcome β
  | .returned a, f => f a
  | .reported e, _ => .reported e
  | .outOfBounds, _ => .outOfBounds
  | .terminated, _ => .terminated

/-- The load `buf[i]`. -/
def load {α : Type} (buf : List α) (i : Nat) : Outcome α :=
  match buf[i]? with
  | some b => .returned b
  | none => .outOfBounds

/-- The store `buf[i] = v`. -/
def store {α : Type} (buf : List α) (i : Nat) (v : α) : Outcome (List α) :=
  if i < buf.length then .returned (buf.set i v) else .outOfBounds

/-- The call `v.resize(n)` of `std::vector`: the first `n` elements are kept
and the vector is padded with `fill` (zero) up to length `n`. -/
def resize {α : Type} (v : List α) (n : Nat) (fill : α) : List α :=
  v.take n ++ List.replicate (n - v.length) fill

/-- The loop `for (i = lo; i < lo + count; i++) body(i)` over a state. -/
def forLoop {σ : Type} (body : Nat → σ → Outcome σ) : Nat → Nat → σ → Outcome σ
  | _, 0, s => .returned s
  | lo, count + 1, s => (body lo s).bind (forLoop body (lo + 1) count)

/-- The two nested loops `for y < height, for x < width` shared by the three
decoders: each iteration computes `val` from the linear index
`n = y * width + x` and stores it in `image[y * width + x]`. -/
def pixelLoops (val : Nat → Outcome Nat) (width height : Nat) (image : List Nat) :
    Outcome (List Nat) :=
  forLoop (fun y img =>
    forLoop (fun x img =>
      (val (y * width + x)).bind (fun v => store img (y * width + x) v)) 0 width img)
    0 height image

/-! ## 12-bit decoder -/

/-- The table `offsets[2][2] = {{0, 1}, {1, 2}}` of `decode12_hdr`. -/
def offsets12 (n2 : Nat) : Nat × Nat :=
  if n2 = 0 then (0, 1) else (1, 2)

/-- The table `bit_shifts[2] = {4, 0}` of `decode12_hdr`. -/
def bit_shifts12 (n2 : Nat) : Nat :=
  if n2 = 0 then 4 else 0

/-- The three loads that fill `buf[3]` in `decode12_hdr`. -/
def loadBuf12 (data : List Byte) (addr3 : Nat) (do_swap : Bool) : Outcome (List Byte) :=
  if do_swap then
    if addr3 % 2 ≠ 0 then
      (load data (addr3 - 1)).bind fun c0 =>
      (load data (addr3 + 2)).bind fun c1 =>
      (load data (addr3 + 1)).bind fun c2 =>
      .returned [c0, c1, c2]
    else
      (load data (addr3 + 1)).bind fun c0 =>
      (load data (addr3 + 0)).bind fun c1 =>
      (load data (addr3 + 3)).bind fun c2 =>
      .returned [c0, c1, c2]
  else
    (load data (addr3 + 0)).bind fun c0 =>
    (load data (addr3 + 1)).bind fun c1 =>
    (load data (addr3 + 2)).bind fun c2 =>
    .returned [c0, c1, c2]

/-- The body of the loops of `decode12_hdr`: the value `val` stored for the
linear index `n`. -/
def decode12_val (data : List Byte) (do_swap : Bool) (n : Nat) : Outcome Nat :=
  let n2 := n % 2
  let addr3 := (n / 2) * 3
  let bit_shift := bit_shifts12 n2
  let offset := offsets12 n2
  (loadBuf12 data addr3 do_swap).bind fun buf =>
  (load buf offset.1).bind fun c0 =>
  (load buf offset.2).bind fun c1 =>
  let b0 := c0.val &&& 0xff
  let b1 := c1.val &&& 0xff
  let val := (b0 <<< 8) ||| b1
  .returned (0xfff &&& (val >>> bit_shift))

/-- The function `decode12_hdr(image, data, width, height, do_swap)`; the
result is the content of `image` after the call. -/
def decode12_hdr (image : List Nat) (data : List Byte) (width height : Nat)
    (do_swap : Bool) : Outcome (List Nat) :=
  pixelLoops (decode12_val data do_swap) width height (resize image (width * height) 0)

/-! ## 14-bit decoder -/

/-- The table `offsets[4][3] = {{0, 0, 1}, {1, 2, 3}, {3, 4, 5}, {5, 5, 6}}`
of `decode14_hdr`. -/
def offsets14 (n4 : Nat) : Nat × Nat × Nat :=
  if n4 = 0 then (0, 0, 1)
  else if n4 = 1 then (1, 2, 3)
  else if n4 = 2 then (3, 4, 5)
  else (5, 5, 6)

/-- The table `bit_shifts[4] = {2, 4, 6, 0}` of `decode14_hdr`. -/
def bit_shifts14 (n4 : Nat) : Nat :=
  if n4 = 0 then 2
  else if n4 = 1 then 4
  else if n4 = 2 then 6
  else 0

/-- The seven loads that fill `buf[7]` in `decode14_hdr`; without swap they
are the `memcpy(buf, &data[addr7], 7)`. -/
def loadBuf14 (data : List Byte) (addr7 : Nat) (do_swap : Bool) : Outcome (List Byte) :=
  if do_swap then
    if addr7 % 2 ≠ 0 then
      (load data (addr7 - 1)).bind fun c0 =>
      (load data (addr7 + 2)).bind fun c1 =>
      (load data (addr7 + 1)).bind fun c2 =>
      (load data (addr7 + 4)).bind fun c3 =>
      (load data (addr7 + 3)).bind fun c4 =>
      (load data (addr7 + 6)).bind fun c5 =>
      (load data (addr7 + 5)).bind fun c6 =>
      .returned [c0, c1, c2, c3, c4, c5, c6]
    else
      (load data (addr7 + 1)).bind fun c0 =>
      (load data (addr7 + 0)).bind fun c1 =>
      (load data (addr7 + 3)).bind fun c2 =>
      (load data (addr7 + 2)).bind fun c3 =>
      (load data (addr7 + 5)).bind fun c4 =>
      (load data (addr7 + 4)).bind fun c5 =>
      (load data (addr7 + 7)).bind fun c6 =>
      .returned [c0, c1, c2, c3, c4, c5, c6]
  else
    (load data (addr7 + 0)).bind fun c0 =>
    (load data (addr7 + 1)).bind fun c1 =>
    (load data (addr7 + 2)).bind fun c2 =>
    (load data (addr7 + 3)).bind fun c3 =>
    (load data (addr7 + 4)).bind fun c4 =>
    (load data (addr7 + 5)).bind fun c5 =>
    (load data (addr7 + 6)).bind fun c6 =>
    .returned [c0, c1, c2, c3, c4, c5, c6]

/-- The body of the loops of `decode14_hdr`: the value `val` stored for the
linear index `n`. -/
def decode14_val (data : List Byte) (do_swap : Bool) (n : Nat) : Outcome Nat :=
  let n4 := n % 4
  let addr7 := (n / 4) * 7
  let offset := offsets14 n4
  let bit_shift := bit_shifts14 n4
  (loadBuf14 data addr7 do_swap).bind fun buf =>
  (load buf offset.1).bind fun c0 =>
  (load buf offset.2.1).bind fun c1 =>
  (load buf offset.2.2).bind fun c2 =>
  let b0 := c0.val &&& 0xff
  let b1 := c1.val &&& 0xff
  let b2 := c2.val &&& 0xff
  let val := (b0 <<< 16) ||| (b1 <<< 8) ||| b2
  .returned (0x3fff &&& (val >>> bit_shift))

/-- The function `decode14_hdr(image, data, width, height, do_swap)`; the
result is the content of `image` after the call. -/
def decode14_hdr (image : List Nat) (data : List Byte) (width height : Nat)
    (do_swap : Bool) : Outcome (List Nat) :=
  pixelLoops (decode14_val data do_swap) width height (resize image (width * height) 0)

/-! ## 16-bit decoder -/

/-- Byte order of the machine that runs the program.  The source reads and
writes 16-bit objects through `reinterpret_cast`, so the value it sees
depends on it. -/
inductive Endian where
  | little
  | big
  deriving DecidableEq, Repr

/-- The value of an `unsigned short` object whose byte at the lower address
is `m0` and whose byte at the higher address is `m1`. -/
def wordOfBytes (host : Endian) (m0 m1 : Nat) : Nat :=
  match host with
  | .little => m0 + 256 * m1
  | .big => 256 * m0 + m1

/-- The conversion `short x = val` of a 16-bit unsigned value. -/
def toShort (val : Nat) : Int :=
  if val % 65536 < 32768 then (val % 65536 : Nat) else ((val % 65536 : Nat) : Int) - 65536

/-- The conversion of an integer to `char` storage: its low eight bits. -/
def toCharBits (x : Int) : Nat :=
  (x % 256).toNat

/-- The function `swap2(val)`: `buf[1] = x; buf[0] = x >> 8;` on the bytes
of the result object `ret`. -/
def swap2 (host : Endian) (val : Nat) : Nat :=
  let x : Int := toShort val
  let buf1 := toCharBits x
  let buf0 := toCharBits (x >>> 8)
  wordOfBytes host buf0 buf1

/-- The load `ptr[n]` through `unsigned short* ptr = reinterpret_cast<...>(data)`:
this reads the bytes `data[2n]` and `data[2n+1]`. -/
def load16 (host : Endian) (data : List Byte) (n : Nat) : Outcome Nat :=
  (load data (2 * n)).bind fun m0 =>
  (load data (2 * n + 1)).bind fun m1 =>
  .returned (wordOfBytes host m0.val m1.val)

/-- The body of the loops of `decode16_hdr`: the value `val` stored for the
linear index `n`. -/
def decode16_val (host : Endian) (data : List Byte) (do_swap : Bool) (n : Nat) :
    Outcome Nat :=
  (load16 host data n).bind fun val =>
  .returned (if do_swap then swap2 host val else val)

/-- The function `decode16_hdr(image, data, width, height, do_swap)`; the
result is the content of `image` after the call. -/
def decode16_hdr (host : Endian) (image : List Nat) (data : List Byte)
    (width height : Nat) (do_swap : Bool) : Outcome (List Nat) :=
  pixelLoops (decode16_val host data do_swap) width height (resize image (width * height) 0)

/-! ## The image record, the dispatcher and the normalizer -/

/-- Modelled from the spec: the record `tinydng::DNGInfo` is declared in
`tiny_dng_loader.h`, which is not among the sources.  The viewer reads two
fields of it, the calibration levels, which the specification gives as
integers. -/
structure DNGInfo where
  black_level : Int
  white_level : Int
  deriving DecidableEq, Repr

/-- The record `RAWImage`. -/
structure RAWImage where
  width : Nat
  height : Nat
  bits : Int
  components : Int
  dng_info : DNGInfo
  /-- Decoded RAW data. -/
  data : List Byte
  /-- HDR RAW data. -/
  image : List Nat
  /-- Developed image. -/
  framebuffer : List ℚ
  deriving DecidableEq

/-- The function `DecodeToHDR(raw, swap_endian)`; the result is `*raw` after
the call. -/
def DecodeToHDR (host : Endian) (raw : RAWImage) (swap_endian : Bool) : Outcome RAWImage :=
  let raw := { raw with image := resize raw.image (raw.width * raw.height) 0 }
  if raw.bits = 12 then
    (decode12_hdr raw.image raw.data raw.width raw.height swap_endian).bind fun img =>
    .returned { raw with image := img }
  else if raw.bits = 14 then
    (decode14_hdr raw.image raw.data raw.width raw.height swap_endian).bind fun img =>
    .returned { raw with image := img }
  else if raw.bits = 16 then
    (decode16_hdr host raw.image raw.data raw.width raw.height swap_endian).bind fun img =>
    .returned { raw with image := img }
  else
    .terminated

/-- The body of the loops of `Develop` for the pixel `(x, y)`. -/
def developPixel (raw : RAWImage) (intensity inv_scale : ℚ) (flipY : Bool) (y x : Nat)
    (framebuffer : List ℚ) : Outcome (List ℚ) :=
  (load raw.image (y * raw.width + x)).bind fun sample =>
  let value := ((sample : ℚ) - (raw.dng_info.black_level : ℚ)) * inv_scale
  let Y := if flipY then raw.height - y - 1 else y
  (store framebuffer (3 * (Y * raw.width + x) + 0) (intensity * value)).bind fun fb =>
  (store fb (3 * (Y * raw.width + x) + 1) (intensity * value)).bind fun fb =>
  store fb (3 * (Y * raw.width + x) + 2) (intensity * value)

/-- The function `Develop(raw, intensity, flipY)`; the result is `*raw` after
the call.  The upload of the framebuffer to the GL texture that ends the
source function does not touch `*raw` and is left out. -/
def Develop (raw : RAWImage) (intensity : ℚ) (flipY : Bool) : Outcome RAWImage :=
  let framebuffer :=
    if raw.framebuffer.length ≠ raw.width * raw.height * 3 then
      resize raw.framebuffer (raw.width * raw.height * 3) 0
    else raw.framebuffer
  let inv_scale : ℚ :=
    1 / (((raw.dng_info.white_level - raw.dng_info.black_level : Int)) : ℚ)
  (forLoop (fun y fb => forLoop (developPixel raw intensity inv_scale flipY y) 0 raw.width fb)
    0 raw.height framebuffer).bind fun fb =>
  .returned { raw with framebuffer := fb }

/-! ## Auxiliary definitions used in the statements -/

/-- An outcome that is a normal return or an out-of-bounds access. -/
def Outcome.benign {α : Type} : Outcome α → Prop
  | .returned _ => True
  | .outOfBounds => True
  | .reported _ => False
  | .terminated => False

/-- The value a call returned, or `d` when it did not return. -/
def Outcome.getD {α : Type} (o : Outcome α) (d : α) : α :=
  match o with
  | .returned a => a
  | _ => d

/-- The byte that storing the integer `v` into an `unsigned char` leaves. -/
def toByte (v : Nat) : Byte := ⟨v % 256, Nat.mod_lt v (by decide)⟩

/-- The inverse packing of the 12-bit layout as the specification gives it:
two samples go into the 3-byte group
`[s0 >> 4, ((s0 & 0xF) << 4) | (s1 >> 8), s1 & 0xFF]`. -/
def pack12 (s0 s1 : Nat) : List Byte :=
  [toByte (s0 >>> 4), toByte (((s0 &&& 0xF) <<< 4) ||| (s1 >>> 8)), toByte (s1 &&& 0xFF)]

/-- The inverse packing of the 14-bit layout: four samples concatenated
most-significant-first into 56 bits, cut into seven bytes. -/
def pack14 (s0 s1 s2 s3 : Nat) : List Byte :=
  let bits := ((s0 * 2 ^ 14 + s1) * 2 ^ 14 + s2) * 2 ^ 14 + s3
  [toByte (bits / 2 ^ 48), toByte (bits / 2 ^ 40), toByte (bits / 2 ^ 32),
    toByte (bits / 2 ^ 24), toByte (bits / 2 ^ 16), toByte (bits / 2 ^ 8), toByte bits]

/-- The row that `Develop` writes for the source row `y`:
`int Y = (flipY) ? (raw->height - y - 1) : y`. -/
def outRow (height : Nat) (flipY : Bool) (y : Nat) : Nat :=
  if flipY then height - y - 1 else y

/-- The value `intensity * value` that `Develop` computes for the sample
`image[n]`; zero stands in when `n` is outside the image. -/
def developValue (raw : RAWImage) (intensity inv_scale : ℚ) (n : Nat) : ℚ :=
  intensity * ((((raw.image.getD n 0 : Nat) : ℚ) - (raw.dng_info.black_level : ℚ)) * inv_scale)

/-- The source pixel whose value lands in the output pixel `m`. -/
def srcIndex (width height : Nat) (flipY : Bool) (m : Nat) : Nat :=
  outRow height flipY (m / width) * width + m % width

/-- A 12-bit image of two samples in one 3-byte group, not yet decoded. -/
def sampleRaw12 : RAWImage :=
  { width := 2, height := 1, bits := 12, components := 1,
    dng_info := { black_level := 0, white_level := 4095 },
    data := [0x12, 0x34, 0x56], image := [], framebuffer := [] }

/-- The image `sampleRaw12` after decoding: samples `0x123` and `0x456`. -/
def sampleDecoded12 : RAWImage :=
  { sampleRaw12 with image := [0x123, 0x456] }

/-- A decoded 2 x 2 image, for the vertical flip. -/
def sampleDecoded2x2 : RAWImage :=
  { width := 2, height := 2, bits := 12, components := 1,
    dng_info := { black_level := 0, white_level := 4 },
    data := [], image := [1, 2, 3, 4], framebuffer := [] }

/-- An image record whose bit depth is 8. -/
def depth8Raw : RAWImage :=
  { width := 1, height := 1, bits := 8, components := 1,
    dng_info := { black_level := 0, white_level := 255 },
    data := [0x12], image := [], framebuffer := [] }

/-! ## Definitions for the later statements -/

/-- The framebuffer that `Develop` leaves, entry by entry: entry `j` belongs
to the output pixel `j / 3` and holds the value computed from the source
pixel of that output pixel. -/
def developedBuffer (raw : RAWImage) (intensity : ℚ) (flipY : Bool) : List ℚ :=
  (List.range (raw.width * raw.height * 3)).map fun j =>
    developValue raw intensity
      (1 / (((raw.dng_info.white_level - raw.dng_info.black_level : Int)) : ℚ))
      (srcIndex raw.width raw.height flipY (j / 3))

/-- The image `sampleDecoded12` with a framebuffer left over from an earlier,
larger image. -/
def sampleDecoded12Stale : RAWImage :=
  { sampleDecoded12 with framebuffer := [9, 9, 9, 9, 9, 9, 9, 9] }

/-- A decoded image of two samples, the white level and zero, with a black
level of 64. -/
def unclampedRaw : RAWImage :=
  { width := 2, height := 1, bits := 12, components := 1,
    dng_info := { black_level := 64, white_level := 4095 },
    data := [], image := [4095, 0], framebuffer := [] }

/-- The image `sampleDecoded12` after `Develop` with intensity 1. -/
def sampleDeveloped12 : RAWImage :=
  { sampleDecoded12 with
    framebuffer := [0x123 / 4095, 0x123 / 4095, 0x123 / 4095,
      0x456 / 4095, 0x456 / 4095, 0x456 / 4095] }

/-- The buffer with each aligned byte pair exchanged, `data'[i] = data[i xor 1]`:
a 16-bit word swap of the byte stream. -/
def wordSwap (data : List Byte) : List Byte :=
  (List.range data.length).map fun i => data.getD (i ^^^ 1) 0

/-- The buffer as a bit string, most significant bit first: bit `8 * i + j`
of the string is bit `7 - j` of `data[i]` (zero outside the buffer). -/
def streamBit (data : List Byte) (k : Nat) : Nat :=
  (data.getD (k / 8) 0).val / 2 ^ (7 - k % 8) % 2

/-- The unsigned integer formed by the bits `[start, start + len)` of the
bit string, most significant first. -/
def bitField (data : List Byte) (start : Nat) : Nat → Nat
  | 0 => 0
  | len + 1 => 2 * bitField data start len + streamBit data (start + len)

/-- A buffer of two bytes: it holds the 14 bits of one sample but not the
7-byte group that `decode14_hdr` copies. -/
def twoBytes : List Byte := [0xAB, 0xCD]

/-- One 3-byte group followed by one 7-byte group worth of bytes, for the
bit-field readings. -/
def tenBytes : List Byte := [0x12, 0x34, 0x56, 0x78, 0x9A, 0xBC, 0xDE, 0xF0, 0x0F, 0x1E]

/-- The inner loop of a decoder for the row `y`: `for (x = 0; x < width; x++)`
with the body of `pixelLoops`. -/
def rowLoop (val : Nat → Outcome Nat) (width y : Nat) (image : List Nat) :
    Outcome (List Nat) :=
  forLoop (fun x img =>
    (val (y * width + x)).bind (fun v => store img (y * width + x) v)) 0 width image

/-- The rows of a decoder's outer loop run one after the other in the order
of the list `rows`, each on the image the previous ones left. -/
def decodeRows (val : Nat → Outcome Nat) (width : Nat) :
    List Nat → List Nat → Outcome (List Nat)
  | [], image => .returned image
  | y :: rows, image => (rowLoop val width y image).bind (decodeRows val width rows)

/-- Position-only addressing of a decoder `dec` whose loop body computes
`val n` for the linear index `n`:

* the outcome depends on the number of samples only, not on the shape nor on
  the initial image;
* running the rows in any order gives the outcome of the sequential decode;
* a range of rows run on its own, on any buffer of the image's size, writes
  exactly the entries of these rows of the sequential decode and leaves the
  other entries alone;
* the entry at `(x, y)` of the decoded image is `val (y * width + x)`. -/
def PositionOnly (val : Nat → Outcome Nat)
    (dec : List Nat → Nat → Nat → Outcome (List Nat)) : Prop :=
  (∀ image image1 w h w1 h1, w * h = w1 * h1 → dec image w h = dec image1 w1 h1) ∧
  (∀ image w h rows, rows.Perm (List.range h) →
    decodeRows val w rows (resize image (w * h) 0) = dec image w h) ∧
  (∀ image w h full, dec image w h = .returned full →
    ∀ y0 k buf, y0 + k ≤ h → buf.length = w * h →
      ∃ out, decodeRows val w (List.range' y0 k) buf = .returned out ∧
        out.length = w * h ∧
        (∀ j, y0 * w ≤ j → j < (y0 + k) * w → out[j]? = full[j]?) ∧
        (∀ j, ¬ (y0 * w ≤ j ∧ j < (y0 + k) * w) → out[j]? = buf[j]?)) ∧
  (∀ image w h full, dec image w h = .returned full →
    full.length = w * h ∧
    ∀ x y, x < w → y < h →
      ∃ v, val (y * w + x) = .returned v ∧ full[y * w + x]? = some v)

/-- A buffer of two 3-byte groups, four 12-bit samples. -/
def sixBytes : List Byte := [0x12, 0x34, 0x56, 0x78, 0x9A, 0xBC]

/-- The byte indices that `decode12_hdr` loads for the group at `addr3`, in
the order of the source. -/
def loadIndices12 (addr3 : Nat) (do_swap : Bool) : List Nat :=
  if do_swap then
    if addr3 % 2 ≠ 0 then [addr3 - 1, addr3 + 2, addr3 + 1]
    else [addr3 + 1, addr3 + 0, addr3 + 3]
  else [addr3 + 0, addr3 + 1, addr3 + 2]

/-- The byte indices that `decode14_hdr` loads for the group at `addr7`, in
the order of the source. -/
def loadIndices14 (addr7 : Nat) (do_swap : Bool) : List Nat :=
  if do_swap then
    if addr7 % 2 ≠ 0 then
      [addr7 - 1, addr7 + 2, addr7 + 1, addr7 + 4, addr7 + 3, addr7 + 6, addr7 + 5]
    else
      [addr7 + 1, addr7 + 0, addr7 + 3, addr7 + 2, addr7 + 5, addr7 + 4, addr7 + 7]
  else
    [addr7 + 0, addr7 + 1, addr7 + 2, addr7 + 3, addr7 + 4, addr7 + 5, addr7 + 6]

/-- The byte indices that the decoder for the bit depth `bits` loads for the
sample `n`: those of the sample's group at 12 and 14 bits, the two bytes of
the word `ptr[n]` at 16 bits. -/
def loadIndices (bits : Int) (do_swap : Bool) (n : Nat) : List Nat :=
  if bits = 12 then loadIndices12 (n / 2 * 3) do_swap
  else if bits = 14 then loadIndices14 (n / 4 * 7) do_swap
  else [2 * n, 2 * n + 1]

/-- The loads `data[i]` for the indices of a list, one after the other. -/
def loadAll (data : List Byte) : List Nat → Outcome (List Byte)
  | [] => .returned []
  | i :: rest =>
    (load data i).bind fun c => (loadAll data rest).bind fun cs => .returned (c :: cs)

theorem Outcome.benign_bind {α β : Type} {o : Outcome α} {f : α → Outcome β}
    (ho : o.benign) (hf : ∀ a, (f a).benign) : (o.bind f).benign := by
  cases o with
  | returned a => exact hf a
  | outOfBounds => trivial
  | reported e => exact ho.elim
  | terminated => exact ho.elim

theorem load_benign {α : Type} (buf : List α) (i : Nat) : (load buf i).benign := by
  unfold load
  cases buf[i]? <;> trivial

theorem store_benign {α : Type} (buf : List α) (i : Nat) (v : α) :
    (store buf i v).benign := by
  unfold store
  split <;> trivial

theorem load_of_lt {α : Type} (buf : List α) (i : Nat) (h : i < buf.length) :
    load buf i = .returned (buf.get ⟨i, h⟩) := by
  simp [load, List.getElem?_eq_getElem h]

theorem load_of_le {α : Type} (buf : List α) (i : Nat) (h : buf.length ≤ i) :
    load buf i = .outOfBounds := by
  simp [load, List.getElem?_eq_none h]

theorem load_eq_of_getElem? {α : Type} {buf : List α} {i : Nat} {a : α}
    (h : buf[i]? = some a) : load buf i = .returned a := by
  simp [load, h]

theorem forLoop_benign {σ : Type} (body : Nat → σ → Outcome σ)
    (hb : ∀ i s, (body i s).benign) :
    ∀ (count lo : Nat) (s : σ), (forLoop body lo count s).benign := by
  intro count
  induction count with
  | zero => intro lo s; trivial
  | succ c ih =>
    intro lo s
    exact Outcome.benign_bind (hb lo s) (fun a => ih (lo + 1) a)

theorem forLoop_outOfBounds {σ : Type} (body : Nat → σ → Outcome σ)
    (hb : ∀ i s, (body i s).benign) :
    ∀ (count lo : Nat) (s : σ),
      (∃ i, lo ≤ i ∧ i < lo + count ∧ ∀ t, body i t = .outOfBounds) →
      forLoop body lo count s = .outOfBounds := by
  intro count
  induction count with
  | zero => intro lo s ⟨i, h1, h2, _⟩; omega
  | succ c ih =>
    intro lo s ⟨i, h1, h2, hi⟩
    have hbl := hb lo s
    cases hls : body lo s with
    | returned s1 =>
      have hne : i ≠ lo := by
        intro he
        rw [he] at hi
        rw [hi s] at hls
        cases hls
      simp only [forLoop, hls, Outcome.bind]
      exact ih (lo + 1) s1 ⟨i, by omega, by omega, hi⟩
    | outOfBounds => simp [forLoop, hls, Outcome.bind]
    | reported e => rw [hls] at hbl; exact hbl.elim
    | terminated => rw [hls] at hbl; exact hbl.elim

/-- A loop whose iteration `i` overwrites the positions it owns (`own i j`)
with a value that depends on the position only, and leaves the others alone:
after the loop every owned position holds its value and every other position
is unchanged. -/
theorem forLoop_scatter {α : Type} (body : Nat → List α → Outcome (List α))
    (own : Nat → Nat → Prop) (v : Nat → α) (L : Nat) :
    ∀ (count lo : Nat),
      (∀ i, lo ≤ i → i < lo + count → ∀ s : List α, s.length = L →
        ∃ s1, body i s = .returned s1 ∧ s1.length = L ∧
          (∀ j, own i j → s1[j]? = some (v j)) ∧ (∀ j, ¬ own i j → s1[j]? = s[j]?)) →
      ∀ s : List α, s.length = L →
        ∃ out, forLoop body lo count s = .returned out ∧ out.length = L ∧
          (∀ j, (∃ i, lo ≤ i ∧ i < lo + count ∧ own i j) → out[j]? = some (v j)) ∧
          (∀ j, (¬ ∃ i, lo ≤ i ∧ i < lo + count ∧ own i j) → out[j]? = s[j]?) := by
  intro count
  induction count with
  | zero =>
    intro lo _ s hs
    refine ⟨s, rfl, hs, ?_, fun _ _ => rfl⟩
    rintro j ⟨i, h1, h2, _⟩
    omega
  | succ c ih =>
    intro lo hbody s hs
    obtain ⟨s1, h1, hl1, hown1, hnot1⟩ := hbody lo (Nat.le_refl lo) (by omega) s hs
    obtain ⟨out, ho, hlo, hA, hB⟩ :=
      ih (lo + 1) (fun i hi1 hi2 => hbody i (by omega) (by omega)) s1 hl1
    refine ⟨out, ?_, hlo, ?_, ?_⟩
    · simp only [forLoop, h1, Outcome.bind]
      exact ho
    · rintro j ⟨i, hi1, hi2, hij⟩
      by_cases hex : ∃ k, lo + 1 ≤ k ∧ k < lo + 1 + c ∧ own k j
      · exact hA j hex
      · rw [hB j hex]
        by_cases hil : i = lo
        · exact hown1 j (hil ▸ hij)
        · exact absurd ⟨i, by omega, by omega, hij⟩ hex
    · intro j hne
      have h2 : ¬ ∃ k, lo + 1 ≤ k ∧ k < lo + 1 + c ∧ own k j := by
        rintro ⟨k, hk1, hk2, hkj⟩
        exact hne ⟨k, by omega, by omega, hkj⟩
      have h3 : ¬ own lo j := fun h => hne ⟨lo, Nat.le_refl lo, by omega, h⟩
      rw [hB j h2, hnot1 j h3]

theorem store_of_lt {α : Type} (buf : List α) (i : Nat) (x : α) (h : i < buf.length) :
    store buf i x = .returned (buf.set i x) := by
  simp [store, h]

theorem length_resize {α : Type} (v : List α) (n : Nat) (fill : α) :
    (resize v n fill).length = n := by
  simp only [resize, List.length_append, List.length_take, List.length_replicate]
  omega

theorem lin_lt {w h y x : Nat} (hy : y < h) (hx : x < w) : y * w + x < w * h := by
  have h1 : (y + 1) * w ≤ h * w := Nat.mul_le_mul_right w hy
  have h2 : (y + 1) * w = y * w + w := Nat.succ_mul y w
  have h3 : h * w = w * h := Nat.mul_comm h w
  omega

theorem lin_exists {w h j : Nat} (hj : j < w * h) :
    ∃ y, 0 ≤ y ∧ y < 0 + h ∧ ∃ x, 0 ≤ x ∧ x < 0 + w ∧ j = y * w + x := by
  have hw : 0 < w := by
    rcases Nat.eq_zero_or_pos w with h0 | h0
    · rw [h0, Nat.zero_mul] at hj; omega
    · exact h0
  refine ⟨j / w, Nat.zero_le _, ?_, j % w, Nat.zero_le _, ?_, ?_⟩
  · rw [Nat.zero_add]
    exact Nat.div_lt_of_lt_mul hj
  · rw [Nat.zero_add]
    exact Nat.mod_lt j hw
  · have := Nat.div_add_mod j w
    rw [Nat.mul_comm] at this
    omega

/-- When every value `val n`, `n < width * height`, is computed without
fault, the loops of a decoder leave exactly these values in the image. -/
theorem pixelLoops_returned (val : Nat → Outcome Nat) (g : Nat → Nat) (w h : Nat)
    (image : List Nat) (hlen : image.length = w * h)
    (hval : ∀ n, n < w * h → val n = .returned (g n)) :
    pixelLoops val w h image = .returned ((List.range (w * h)).map g) := by
  unfold pixelLoops
  obtain ⟨out, ho, hlo, hA, _⟩ :=
    forLoop_scatter
      (fun y img => forLoop (fun x img =>
        (val (y * w + x)).bind (fun v => store img (y * w + x) v)) 0 w img)
      (fun y j => ∃ x, 0 ≤ x ∧ x < 0 + w ∧ j = y * w + x) g (w * h) h 0
      (by
        intro y _ hy s hs
        exact forLoop_scatter
          (fun x img => (val (y * w + x)).bind (fun v => store img (y * w + x) v))
          (fun x j => j = y * w + x) g (w * h) w 0
          (by
            intro x _ hx t ht
            have hn : y * w + x < w * h := lin_lt (by omega) (by omega)
            refine ⟨t.set (y * w + x) (g (y * w + x)), ?_, ?_, ?_, ?_⟩
            · simp only [hval _ hn, Outcome.bind]
              exact store_of_lt _ _ _ (by omega)
            · simp [ht]
            · intro j hj
              subst hj
              simp [List.getElem?_set, ht, hn]
            · intro j hj
              simp only [List.getElem?_set]
              rw [if_neg (fun h => hj h.symm)])
          s hs)
      image hlen
  rw [ho]
  congr 1
  apply List.ext_getElem?
  intro j
  by_cases hj : j < w * h
  · rw [hA j (lin_exists hj)]
    simp [List.getElem?_map, List.getElem?_range hj]
  · rw [List.getElem?_eq_none (by omega), List.getElem?_eq_none (by simp; omega)]

/-- When every `val n` is a value or an out-of-bounds load and one of them,
for an `n < width * height`, is an out-of-bounds load, the decoder's loops
end in that out-of-bounds load. -/
theorem pixelLoops_outOfBounds (val : Nat → Outcome Nat) (w h : Nat) (image : List Nat)
    (hben : ∀ n, (val n).benign)
    (hbad : ∃ n, n < w * h ∧ val n = .outOfBounds) :
    pixelLoops val w h image = .outOfBounds := by
  obtain ⟨n, hn, hv⟩ := hbad
  obtain ⟨y, _, hy, x, _, hx, hnx⟩ := lin_exists hn
  have hin : ∀ y' i s, ((fun x img =>
      (val (y' * w + x)).bind (fun v => store img (y' * w + x) v)) i s).benign :=
    fun y' i s => Outcome.benign_bind (hben _) (fun a => store_benign _ _ _)
  unfold pixelLoops
  apply forLoop_outOfBounds _ (fun y' s => forLoop_benign _ (hin y') _ _ _)
  refine ⟨y, Nat.zero_le _, hy, fun t => ?_⟩
  apply forLoop_outOfBounds _ (hin y)
  refine ⟨x, Nat.zero_le _, hx, fun t' => ?_⟩
  simp only [← hnx, hv, Outcome.bind]

theorem pixelLoops_benign (val : Nat → Outcome Nat) (w h : Nat) (image : List Nat)
    (hben : ∀ n, (val n).benign) : (pixelLoops val w h image).benign := by
  unfold pixelLoops
  exact forLoop_benign _ (fun y s => forLoop_benign _
    (fun x t => Outcome.benign_bind (hben _) (fun a => store_benign _ _ _)) _ _ _) _ _ _

theorem pixelLoops_returned_getD (val : Nat → Outcome Nat) (w h : Nat)
    (image : List Nat) (hlen : image.length = w * h)
    (hval : ∀ n, n < w * h → ∃ v, val n = .returned v) :
    pixelLoops val w h image = .returned ((List.range (w * h)).map (fun n => (val n).getD 0)) := by
  apply pixelLoops_returned val _ w h image hlen
  intro n hn
  obtain ⟨v, hv⟩ := hval n hn
  rw [hv]
  rfl

/-! ## Bit operations as arithmetic -/

theorem and_ff (x : Nat) : x &&& 0xff = x % 256 := Nat.and_pow_two_sub_one_eq_mod x 8

theorem and_f (x : Nat) : x &&& 0xF = x % 16 := Nat.and_pow_two_sub_one_eq_mod x 4

theorem mask12 (x : Nat) : 0xfff &&& x = x % 4096 := by
  rw [Nat.land_comm]
  exact Nat.and_pow_two_sub_one_eq_mod x 12

theorem mask14 (x : Nat) : 0x3fff &&& x = x % 16384 := by
  rw [Nat.land_comm]
  exact Nat.and_pow_two_sub_one_eq_mod x 14

theorem or_shift4 (a b : Nat) (hb : b < 16) : (a <<< 4) ||| b = a * 16 + b := by
  rw [Nat.shiftLeft_eq]
  have := Nat.mul_add_lt_is_or (i := 4) hb a
  rw [Nat.mul_comm] at this
  exact this.symm

theorem or_shift8 (a b : Nat) (hb : b < 256) : (a <<< 8) ||| b = a * 256 + b := by
  rw [Nat.shiftLeft_eq]
  have := Nat.mul_add_lt_is_or (i := 8) hb a
  rw [Nat.mul_comm] at this
  exact this.symm

theorem or_shift16 (a b c : Nat) (hb : b < 256) (hc : c < 256) :
    (a <<< 16) ||| (b <<< 8) ||| c = a * 65536 + b * 256 + c := by
  rw [Nat.shiftLeft_eq, Nat.shiftLeft_eq]
  have h1 := Nat.mul_add_lt_is_or (i := 16) (b := b * 2 ^ 8) (by omega) a
  have h2 := Nat.mul_add_lt_is_or (i := 8) hc (a * 256 + b)
  rw [Nat.mul_comm] at h1
  rw [← h1]
  have h3 : a * 2 ^ 16 + b * 2 ^ 8 = 2 ^ 8 * (a * 256 + b) := by omega
  rw [h3, ← h2]
  omega

/-! ## 12-bit decoder: the value of one sample -/

/-- Without swap, the sample `n` is assembled from the three bytes of its
group in the way the closed form says. -/
theorem decode12_val_noswap (data : List Byte) (n : Nat) (a b c : Byte)
    (h0 : data[n / 2 * 3]? = some a) (h1 : data[n / 2 * 3 + 1]? = some b)
    (h2 : data[n / 2 * 3 + 2]? = some c) :
    decode12_val data false n =
      .returned (if n % 2 = 0 then a.val * 16 + b.val / 16 else b.val % 16 * 256 + c.val) := by
  have ha := a.isLt
  have hb := b.isLt
  have hc := c.isLt
  have hl : loadBuf12 data (n / 2 * 3) false = .returned [a, b, c] := by
    simp [loadBuf12, load, h0, h1, h2, Outcome.bind]
  have e0 : load [a, b, c] 0 = .returned a := rfl
  have e1 : load [a, b, c] 1 = .returned b := rfl
  have e2 : load [a, b, c] 2 = .returned c := rfl
  unfold decode12_val
  simp only [hl, Outcome.bind]
  rcases Nat.mod_two_eq_zero_or_one n with hn | hn
  · simp only [hn, offsets12, bit_shifts12, if_true, e0, e1, Outcome.bind, and_ff, mask12,
      Nat.shiftRight_eq_div_pow]
    rw [or_shift8 _ _ (Nat.mod_lt _ (by decide))]
    congr 1
    omega
  · simp only [hn, offsets12, bit_shifts12, Nat.one_ne_zero, if_false, e1, e2, Outcome.bind,
      and_ff, mask12, Nat.shiftRight_eq_div_pow]
    rw [or_shift8 _ _ (Nat.mod_lt _ (by decide))]
    congr 1
    omega

theorem decode12_hdr_noswap (image : List Nat) (data : List Byte) (w h : Nat)
    (hcov : ∀ n, n < w * h → n / 2 * 3 + 2 < data.length) :
    decode12_hdr image data w h false =
      .returned ((List.range (w * h)).map (fun n => (decode12_val data false n).getD 0)) := by
  unfold decode12_hdr
  apply pixelLoops_returned_getD _ _ _ _ (length_resize _ _ _)
  intro n hn
  have hc := hcov n hn
  exact ⟨_, decode12_val_noswap data n _ _ _
    (List.getElem?_eq_getElem (by omega)) (List.getElem?_eq_getElem (by omega))
    (List.getElem?_eq_getElem hc)⟩

/-! ## Outcomes of sequenced calls -/

theorem Outcome.bind_eq_returned {α β : Type} {o : Outcome α} {f : α → Outcome β} {b : β}
    (h : o.bind f = .returned b) : ∃ a, o = .returned a ∧ f a = .returned b := by
  cases o with
  | returned a => exact ⟨a, rfl, h⟩
  | outOfBounds => cases h
  | reported e => cases h
  | terminated => cases h

theorem forLoop_returned_inv {σ : Type} (body : Nat → σ → Outcome σ) :
    ∀ (count lo : Nat) (s out : σ), forLoop body lo count s = .returned out →
      ∀ i, lo ≤ i → i < lo + count → ∃ t t1, body i t = .returned t1 := by
  intro count
  induction count with
  | zero => intro lo s out _ i h1 h2; omega
  | succ c ih =>
    intro lo s out hr i h1 h2
    obtain ⟨s1, hs1, hrest⟩ := Outcome.bind_eq_returned hr
    by_cases hil : i = lo
    · exact ⟨s, s1, hil ▸ hs1⟩
    · exact ih (lo + 1) s1 out hrest i (by omega) (by omega)

/-- When the loops of a decoder return, every value `val n`,
`n < width * height`, was computed without fault. -/
theorem pixelLoops_returned_inv (val : Nat → Outcome Nat) (w h : Nat) (image out : List Nat)
    (hr : pixelLoops val w h image = .returned out) :
    ∀ n, n < w * h → ∃ v, val n = .returned v := by
  intro n hn
  obtain ⟨y, hy0, hy, x, hx0, hx, hnx⟩ := lin_exists hn
  obtain ⟨t, t1, ht⟩ := forLoop_returned_inv _ _ _ _ _ hr y hy0 hy
  obtain ⟨u, u1, hu⟩ := forLoop_returned_inv _ _ _ _ _ ht x hx0 hx
  obtain ⟨v, hv, _⟩ := Outcome.bind_eq_returned hu
  exact ⟨v, hnx ▸ hv⟩

/-- The image a decoder returns has `width * height` entries and each entry
is one of the computed values. -/
theorem pixelLoops_returned_mem (val : Nat → Outcome Nat) (w h : Nat) (image out : List Nat)
    (hlen : image.length = w * h) (hr : pixelLoops val w h image = .returned out) :
    out.length = w * h ∧ ∀ v, v ∈ out → ∃ n, n < w * h ∧ val n = .returned v := by
  have hall := pixelLoops_returned_inv val w h image out hr
  have he := pixelLoops_returned_getD val w h image hlen hall
  rw [hr] at he
  injection he with he
  subst he
  refine ⟨by simp, ?_⟩
  intro v hv
  obtain ⟨n, hn, hnv⟩ := List.mem_map.mp hv
  obtain ⟨u, hu⟩ := hall n (List.mem_range.mp hn)
  refine ⟨n, List.mem_range.mp hn, ?_⟩
  rw [hu] at hnv
  rw [hu]
  exact congrArg Outcome.returned hnv

/-- One 3-byte group decoded as a `width = 2`, `height = 1` image. -/
theorem decode12_hdr_group (image : List Nat) (a b c : Byte) :
    decode12_hdr image [a, b, c] 2 1 false =
      .returned [a.val * 16 + b.val / 16, b.val % 16 * 256 + c.val] := by
  rw [decode12_hdr_noswap image [a, b, c] 2 1
    (by intro n hn; simp only [List.length_cons, List.length_nil]; omega)]
  have v0 := decode12_val_noswap [a, b, c] 0 a b c rfl rfl rfl
  have v1 := decode12_val_noswap [a, b, c] 1 a b c rfl rfl rfl
  simp only [Nat.zero_mod, if_true] at v0
  simp only [Nat.one_mod, Nat.one_ne_zero, if_false] at v1
  show Outcome.returned [(decode12_val [a, b, c] false 0).getD 0,
    (decode12_val [a, b, c] false 1).getD 0] = _
  rw [v0, v1]
  rfl

theorem toByte_eq (v : Nat) (b : Byte) (h : v % 256 = b.val) : toByte v = b :=
  Fin.ext h

theorem pack12_unpack (a b c : Byte) :
    pack12 (a.val * 16 + b.val / 16) (b.val % 16 * 256 + c.val) = [a, b, c] := by
  have ha := a.isLt
  have hb := b.isLt
  have hc := c.isLt
  unfold pack12
  simp only [and_f, and_ff, Nat.shiftRight_eq_div_pow]
  rw [or_shift4 _ _ (by omega)]
  rw [toByte_eq _ a (by omega), toByte_eq _ b (by omega), toByte_eq _ c (by omega)]

theorem unpack_pack12 (s0 s1 : Nat) (h0 : s0 < 4096) (h1 : s1 < 4096) :
    (pack12 s0 s1 = [toByte (s0 / 16), toByte (s0 % 16 * 16 + s1 / 256), toByte (s1 % 256)]) ∧
      (toByte (s0 / 16)).val * 16 + (toByte (s0 % 16 * 16 + s1 / 256)).val / 16 = s0 ∧
      (toByte (s0 % 16 * 16 + s1 / 256)).val % 16 * 256 + (toByte (s1 % 256)).val = s1 := by
  refine ⟨?_, ?_, ?_⟩
  · unfold pack12
    simp only [and_f, and_ff, Nat.shiftRight_eq_div_pow]
    rw [or_shift4 _ _ (by omega)]
  · show s0 / 16 % 256 * 16 + (s0 % 16 * 16 + s1 / 256) % 256 / 16 = s0
    omega
  · show (s0 % 16 * 16 + s1 / 256) % 256 % 16 * 256 + s1 % 256 % 256 = s1
    omega

/-- C1: 12-bit round trip without swap.  A 3-byte group `(b0, b1, b2)`
decoded as a `width = 2`, `height = 1` image gives two samples below 4096
whose inverse packing `[s0 >> 4, ((s0 & 0xF) << 4) | (s1 >> 8), s1 & 0xFF]`
is `(b0, b1, b2)` again; and two samples `s0, s1 < 4096`, packed and then
decoded, come back unchanged. -/
theorem decode12_roundtrip (image : List Nat) (b0 b1 b2 : Byte) (s0 s1 : Nat)
    (h0 : s0 < 4096) (h1 : s1 < 4096) :
    (∃ t0 t1, decode12_hdr image [b0, b1, b2] 2 1 false = .returned [t0, t1] ∧
        t0 < 4096 ∧ t1 < 4096 ∧ pack12 t0 t1 = [b0, b1, b2]) ∧
      decode12_hdr image (pack12 s0 s1) 2 1 false = .returned [s0, s1] := by
  constructor
  · refine ⟨_, _, decode12_hdr_group image b0 b1 b2, ?_, ?_, pack12_unpack b0 b1 b2⟩
    · have := b0.isLt
      have := b1.isLt
      omega
    · have := b1.isLt
      have := b2.isLt
      omega
  · obtain ⟨hp, e0, e1⟩ := unpack_pack12 s0 s1 h0 h1
    rw [hp, decode12_hdr_group, e0, e1]

theorem decode12_roundtrip_witness :
    (0xABC < 4096 ∧ 0xDEF < 4096) ∧
      ((∃ t0 t1, decode12_hdr [] [0xAB, 0xCD, 0xEF] 2 1 false = .returned [t0, t1] ∧
          t0 < 4096 ∧ t1 < 4096 ∧ pack12 t0 t1 = [0xAB, 0xCD, 0xEF]) ∧
        decode12_hdr [] (pack12 0xABC 0xDEF) 2 1 false = .returned [0xABC, 0xDEF]) :=
  ⟨by decide, decode12_roundtrip [] 0xAB 0xCD 0xEF 0xABC 0xDEF (by decide) (by decide)⟩

/-- C2: 12-bit closed form without swap.  When the buffer holds the 3-byte
group of every sample, `decode12_hdr` returns an image of `width * height`
entries in which entry `n`, with `k = n / 2`, is `data[3k] * 16 + data[3k+1] / 16`
for even `n` and `(data[3k+1] % 16) * 256 + data[3k+2]` for odd `n`. -/
theorem decode12_closed_form (image : List Nat) (data : List Byte) (width height : Nat)
    (hcov : ∀ n, n < width * height → 3 * (n / 2) + 2 < data.length) :
    ∃ out, decode12_hdr image data width height false = .returned out ∧
      out.length = width * height ∧
      ∀ n, n < width * height →
        ∃ a b c : Byte, data[3 * (n / 2)]? = some a ∧ data[3 * (n / 2) + 1]? = some b ∧
          data[3 * (n / 2) + 2]? = some c ∧
          out[n]? = some (if n % 2 = 0 then a.val * 16 + b.val / 16
            else b.val % 16 * 256 + c.val) := by
  have hcov2 : ∀ n, n < width * height → n / 2 * 3 + 2 < data.length := by
    intro n hn
    have := hcov n hn
    omega
  refine ⟨_, decode12_hdr_noswap image data width height hcov2, by simp, ?_⟩
  intro n hn
  have hc := hcov n hn
  refine ⟨data.get ⟨3 * (n / 2), by omega⟩, data.get ⟨3 * (n / 2) + 1, by omega⟩,
    data.get ⟨3 * (n / 2) + 2, hc⟩, List.getElem?_eq_getElem _, List.getElem?_eq_getElem _,
    List.getElem?_eq_getElem _, ?_⟩
  have hv := decode12_val_noswap data n (data.get ⟨3 * (n / 2), by omega⟩)
    (data.get ⟨3 * (n / 2) + 1, by omega⟩) (data.get ⟨3 * (n / 2) + 2, hc⟩)
    (by rw [Nat.mul_comm]; exact List.getElem?_eq_getElem _)
    (by rw [Nat.mul_comm]; exact List.getElem?_eq_getElem _)
    (by rw [Nat.mul_comm]; exact List.getElem?_eq_getElem _)
  rw [List.getElem?_map, List.getElem?_range hn]
  simp only [Option.map_some', hv, Outcome.getD]

theorem decode12_closed_form_witness :
    (∀ n, n < 2 * 1 → 3 * (n / 2) + 2 < ([0x12, 0x34, 0x56] : List Byte).length) ∧
      (∃ out, decode12_hdr [] [0x12, 0x34, 0x56] 2 1 false = .returned out ∧
        out.length = 2 * 1 ∧
        ∀ n, n < 2 * 1 →
          ∃ a b c : Byte, ([0x12, 0x34, 0x56] : List Byte)[3 * (n / 2)]? = some a ∧
            ([0x12, 0x34, 0x56] : List Byte)[3 * (n / 2) + 1]? = some b ∧
            ([0x12, 0x34, 0x56] : List Byte)[3 * (n / 2) + 2]? = some c ∧
            out[n]? = some (if n % 2 = 0 then a.val * 16 + b.val / 16
              else b.val % 16 * 256 + c.val)) ∧
      decode12_hdr [] [0x12, 0x34, 0x56] 2 1 false = .returned [0x123, 0x456] ∧
      decode12_hdr [] [0xAB, 0xCD, 0xEF] 2 1 false = .returned [0xABC, 0xDEF] :=
  ⟨by decide, decode12_closed_form [] [0x12, 0x34, 0x56] 2 1 (by decide), by decide, by decide⟩

/-! ## 14-bit decoder -/

/-- The four samples held by the 7-byte group `c0 .. c6`, by position
`n4` in the group. -/
theorem decode14_val_noswap (data : List Byte) (n : Nat) (c0 c1 c2 c3 c4 c5 c6 : Byte)
    (h0 : data[n / 4 * 7 + 0]? = some c0) (h1 : data[n / 4 * 7 + 1]? = some c1)
    (h2 : data[n / 4 * 7 + 2]? = some c2) (h3 : data[n / 4 * 7 + 3]? = some c3)
    (h4 : data[n / 4 * 7 + 4]? = some c4) (h5 : data[n / 4 * 7 + 5]? = some c5)
    (h6 : data[n / 4 * 7 + 6]? = some c6) :
    decode14_val data false n =
      .returned (if n % 4 = 0 then c0.val * 64 + c1.val / 4
        else if n % 4 = 1 then c1.val % 4 * 4096 + c2.val * 16 + c3.val / 16
        else if n % 4 = 2 then c3.val % 16 * 1024 + c4.val * 4 + c5.val / 64
        else c5.val % 64 * 256 + c6.val) := by
  have := c0.isLt
  have := c1.isLt
  have := c2.isLt
  have := c3.isLt
  have := c4.isLt
  have := c5.isLt
  have := c6.isLt
  have hl : loadBuf14 data (n / 4 * 7) false = .returned [c0, c1, c2, c3, c4, c5, c6] := by
    simp only [loadBuf14, load, h0, h1, h2, h3, h4, h5, h6, Outcome.bind]
    rfl
  have e0 : load [c0, c1, c2, c3, c4, c5, c6] 0 = .returned c0 := rfl
  have e1 : load [c0, c1, c2, c3, c4, c5, c6] 1 = .returned c1 := rfl
  have e2 : load [c0, c1, c2, c3, c4, c5, c6] 2 = .returned c2 := rfl
  have e3 : load [c0, c1, c2, c3, c4, c5, c6] 3 = .returned c3 := rfl
  have e4 : load [c0, c1, c2, c3, c4, c5, c6] 4 = .returned c4 := rfl
  have e5 : load [c0, c1, c2, c3, c4, c5, c6] 5 = .returned c5 := rfl
  have e6 : load [c0, c1, c2, c3, c4, c5, c6] 6 = .returned c6 := rfl
  have hn4 : n % 4 = 0 ∨ n % 4 = 1 ∨ n % 4 = 2 ∨ n % 4 = 3 := by omega
  unfold decode14_val
  simp only [hl, Outcome.bind]
  rcases hn4 with hn | hn | hn | hn
  all_goals
    simp only [hn, offsets14, bit_shifts14, if_true, e0, e1, e2, e3, e4, e5, e6, Outcome.bind,
      and_ff, mask14, Nat.shiftRight_eq_div_pow, Nat.reduceEqDiff, if_false,
      Nat.succ_ne_zero, OfNat.ofNat_ne_zero, OfNat.ofNat_ne_one]
    rw [or_shift16 _ _ _ (Nat.mod_lt _ (by decide)) (Nat.mod_lt _ (by decide))]
    congr 1
    omega

theorem decode14_hdr_noswap (image : List Nat) (data : List Byte) (w h : Nat)
    (hcov : ∀ n, n < w * h → n / 4 * 7 + 6 < data.length) :
    decode14_hdr image data w h false =
      .returned ((List.range (w * h)).map (fun n => (decode14_val data false n).getD 0)) := by
  unfold decode14_hdr
  apply pixelLoops_returned_getD _ _ _ _ (length_resize _ _ _)
  intro n hn
  have hc := hcov n hn
  exact ⟨_, decode14_val_noswap data n _ _ _ _ _ _ _
    (List.getElem?_eq_getElem (by omega)) (List.getElem?_eq_getElem (by omega))
    (List.getElem?_eq_getElem (by omega)) (List.getElem?_eq_getElem (by omega))
    (List.getElem?_eq_getElem (by omega)) (List.getElem?_eq_getElem (by omega))
    (List.getElem?_eq_getElem hc)⟩

/-- One 7-byte group decoded as a `width = 4`, `height = 1` image. -/
theorem decode14_hdr_group (image : List Nat) (c0 c1 c2 c3 c4 c5 c6 : Byte) :
    decode14_hdr image [c0, c1, c2, c3, c4, c5, c6] 4 1 false =
      .returned [c0.val * 64 + c1.val / 4, c1.val % 4 * 4096 + c2.val * 16 + c3.val / 16,
        c3.val % 16 * 1024 + c4.val * 4 + c5.val / 64, c5.val % 64 * 256 + c6.val] := by
  rw [decode14_hdr_noswap image _ 4 1
    (by intro n hn; simp only [List.length_cons, List.length_nil]; omega)]
  have v0 := decode14_val_noswap [c0, c1, c2, c3, c4, c5, c6] 0 c0 c1 c2 c3 c4 c5 c6
    rfl rfl rfl rfl rfl rfl rfl
  have v1 := decode14_val_noswap [c0, c1, c2, c3, c4, c5, c6] 1 c0 c1 c2 c3 c4 c5 c6
    rfl rfl rfl rfl rfl rfl rfl
  have v2 := decode14_val_noswap [c0, c1, c2, c3, c4, c5, c6] 2 c0 c1 c2 c3 c4 c5 c6
    rfl rfl rfl rfl rfl rfl rfl
  have v3 := decode14_val_noswap [c0, c1, c2, c3, c4, c5, c6] 3 c0 c1 c2 c3 c4 c5 c6
    rfl rfl rfl rfl rfl rfl rfl
  show Outcome.returned [(decode14_val [c0, c1, c2, c3, c4, c5, c6] false 0).getD 0,
    (decode14_val [c0, c1, c2, c3, c4, c5, c6] false 1).getD 0,
    (decode14_val [c0, c1, c2, c3, c4, c5, c6] false 2).getD 0,
    (decode14_val [c0, c1, c2, c3, c4, c5, c6] false 3).getD 0] = _
  rw [v0, v1, v2, v3]
  rfl

theorem pack14_unpack (c0 c1 c2 c3 c4 c5 c6 : Byte) :
    pack14 (c0.val * 64 + c1.val / 4) (c1.val % 4 * 4096 + c2.val * 16 + c3.val / 16)
      (c3.val % 16 * 1024 + c4.val * 4 + c5.val / 64) (c5.val % 64 * 256 + c6.val) =
      [c0, c1, c2, c3, c4, c5, c6] := by
  have := c0.isLt
  have := c1.isLt
  have := c2.isLt
  have := c3.isLt
  have := c4.isLt
  have := c5.isLt
  have := c6.isLt
  unfold pack14
  simp only []
  rw [toByte_eq _ c0 (by omega), toByte_eq _ c1 (by omega), toByte_eq _ c2 (by omega),
    toByte_eq _ c3 (by omega), toByte_eq _ c4 (by omega), toByte_eq _ c5 (by omega),
    toByte_eq _ c6 (by omega)]

theorem unpack_pack14 (s0 s1 s2 s3 : Nat)
    (h0 : s0 ≤ 16383) (h1 : s1 ≤ 16383) (h2 : s2 ≤ 16383) (h3 : s3 ≤ 16383) :
    ∃ c0 c1 c2 c3 c4 c5 c6 : Byte, pack14 s0 s1 s2 s3 = [c0, c1, c2, c3, c4, c5, c6] ∧
      c0.val * 64 + c1.val / 4 = s0 ∧
      c1.val % 4 * 4096 + c2.val * 16 + c3.val / 16 = s1 ∧
      c3.val % 16 * 1024 + c4.val * 4 + c5.val / 64 = s2 ∧
      c5.val % 64 * 256 + c6.val = s3 := by
  refine ⟨_, _, _, _, _, _, _, rfl, ?_, ?_, ?_, ?_⟩
  all_goals
    simp only [toByte]
    omega

/-- C3: 14-bit round trip without swap.  A 7-byte group decoded as a
`width = 4`, `height = 1` image gives four samples whose re-packing (the four
values concatenated most-significant-first into 56 bits) is the original
seven bytes; and four samples in `[0, 16383]`, packed and then decoded, come
back unchanged. -/
theorem decode14_roundtrip (image : List Nat) (c0 c1 c2 c3 c4 c5 c6 : Byte)
    (s0 s1 s2 s3 : Nat)
    (h0 : s0 ≤ 16383) (h1 : s1 ≤ 16383) (h2 : s2 ≤ 16383) (h3 : s3 ≤ 16383) :
    (∃ t0 t1 t2 t3,
        decode14_hdr image [c0, c1, c2, c3, c4, c5, c6] 4 1 false =
          .returned [t0, t1, t2, t3] ∧
        t0 ≤ 16383 ∧ t1 ≤ 16383 ∧ t2 ≤ 16383 ∧ t3 ≤ 16383 ∧
        pack14 t0 t1 t2 t3 = [c0, c1, c2, c3, c4, c5, c6]) ∧
      decode14_hdr image (pack14 s0 s1 s2 s3) 4 1 false = .returned [s0, s1, s2, s3] := by
  have := c0.isLt
  have := c1.isLt
  have := c2.isLt
  have := c3.isLt
  have := c4.isLt
  have := c5.isLt
  have := c6.isLt
  constructor
  · exact ⟨_, _, _, _, decode14_hdr_group image c0 c1 c2 c3 c4 c5 c6, by omega, by omega,
      by omega, by omega, pack14_unpack c0 c1 c2 c3 c4 c5 c6⟩
  · obtain ⟨d0, d1, d2, d3, d4, d5, d6, hp, e0, e1, e2, e3⟩ :=
      unpack_pack14 s0 s1 s2 s3 h0 h1 h2 h3
    rw [hp, decode14_hdr_group, e0, e1, e2, e3]

theorem decode14_roundtrip_witness :
    (0x2AF3 ≤ 16383 ∧ 0x1234 ≤ 16383 ∧ 0x3FFF ≤ 16383 ∧ 0 ≤ 16383) ∧
      ((∃ t0 t1 t2 t3,
          decode14_hdr [] [0xAB, 0xCD, 0xEF, 0x01, 0x23, 0x45, 0x67] 4 1 false =
            .returned [t0, t1, t2, t3] ∧
          t0 ≤ 16383 ∧ t1 ≤ 16383 ∧ t2 ≤ 16383 ∧ t3 ≤ 16383 ∧
          pack14 t0 t1 t2 t3 = [0xAB, 0xCD, 0xEF, 0x01, 0x23, 0x45, 0x67]) ∧
        decode14_hdr [] (pack14 0x2AF3 0x1234 0x3FFF 0) 4 1 false =
          .returned [0x2AF3, 0x1234, 0x3FFF, 0]) :=
  ⟨by decide, decode14_roundtrip [] 0xAB 0xCD 0xEF 0x01 0x23 0x45 0x67 0x2AF3 0x1234 0x3FFF 0
    (by decide) (by decide) (by decide) (by decide)⟩

/-! ## 16-bit decoder -/

theorem decode16_val_noswap (host : Endian) (data : List Byte) (n : Nat) (m0 m1 : Byte)
    (h0 : data[2 * n]? = some m0) (h1 : data[2 * n + 1]? = some m1) :
    decode16_val host data false n = .returned (wordOfBytes host m0.val m1.val) := by
  simp [decode16_val, load16, load, h0, h1, Outcome.bind]

/-- C4: 16-bit decode without swap.  With a buffer of at least
`2 * width * height` bytes, `decode16_hdr` returns an image of
`width * height` entries whose entry `n` is the 16-bit word that the bytes
`data[2n]`, `data[2n+1]` form in the host byte order: `data[2n] + 256 * data[2n+1]`
on a little-endian host, `256 * data[2n] + data[2n+1]` on a big-endian one.
Entry `n` is made of these two bytes only. -/
theorem decode16_words (host : Endian) (image : List Nat) (data : List Byte)
    (width height : Nat) (hlen : 2 * width * height ≤ data.length) :
    ∃ out, decode16_hdr host image data width height false = .returned out ∧
      out.length = width * height ∧
      ∀ n, n < width * height →
        ∃ m0 m1 : Byte, data[2 * n]? = some m0 ∧ data[2 * n + 1]? = some m1 ∧
          out[n]? = some (wordOfBytes host m0.val m1.val) ∧
          (host = Endian.little → out[n]? = some (m0.val + 256 * m1.val)) ∧
          (host = Endian.big → out[n]? = some (256 * m0.val + m1.val)) := by
  rw [Nat.mul_assoc] at hlen
  have hval : ∀ (n : Nat) (hn : n < width * height),
      decode16_val host data false n =
        .returned (wordOfBytes host (data.get ⟨2 * n, by omega⟩).val
          (data.get ⟨2 * n + 1, by omega⟩).val) := by
    intro n hn
    exact decode16_val_noswap host data n _ _ (List.getElem?_eq_getElem _)
      (List.getElem?_eq_getElem _)
  have hr : decode16_hdr host image data width height false =
      .returned ((List.range (width * height)).map
        (fun n => (decode16_val host data false n).getD 0)) := by
    unfold decode16_hdr
    exact pixelLoops_returned_getD _ _ _ _ (length_resize _ _ _) (fun n hn => ⟨_, hval n hn⟩)
  refine ⟨_, hr, by simp, ?_⟩
  intro n hn
  have ho : ((List.range (width * height)).map
      (fun n => (decode16_val host data false n).getD 0))[n]? =
      some (wordOfBytes host (data.get ⟨2 * n, by omega⟩).val
        (data.get ⟨2 * n + 1, by omega⟩).val) := by
    rw [List.getElem?_map, List.getElem?_range hn]
    simp only [Option.map_some', hval n hn, Outcome.getD]
  refine ⟨data.get ⟨2 * n, by omega⟩, data.get ⟨2 * n + 1, by omega⟩,
    List.getElem?_eq_getElem _, List.getElem?_eq_getElem _, ho, ?_, ?_⟩
  · intro hh
    rw [ho, hh]
    rfl
  · intro hh
    rw [ho, hh]
    rfl

theorem decode16_words_witness :
    (2 * 2 * 1 ≤ ([0x34, 0x12, 0xCD, 0xAB] : List Byte).length) ∧
      (∃ out, decode16_hdr Endian.little [] [0x34, 0x12, 0xCD, 0xAB] 2 1 false = .returned out ∧
        out.length = 2 * 1 ∧
        ∀ n, n < 2 * 1 →
          ∃ m0 m1 : Byte, ([0x34, 0x12, 0xCD, 0xAB] : List Byte)[2 * n]? = some m0 ∧
            ([0x34, 0x12, 0xCD, 0xAB] : List Byte)[2 * n + 1]? = some m1 ∧
            out[n]? = some (wordOfBytes Endian.little m0.val m1.val) ∧
            (Endian.little = Endian.little → out[n]? = some (m0.val + 256 * m1.val)) ∧
            (Endian.little = Endian.big → out[n]? = some (256 * m0.val + m1.val))) ∧
      decode16_hdr Endian.little [] [0x34, 0x12, 0xCD, 0xAB] 2 1 false =
        .returned [0x1234, 0xABCD] ∧
      decode16_hdr Endian.big [] [0x34, 0x12, 0xCD, 0xAB] 2 1 false =
        .returned [0x3412, 0xCDAB] :=
  ⟨by decide, decode16_words Endian.little [] [0x34, 0x12, 0xCD, 0xAB] 2 1 (by decide),
    by decide, by decide⟩

/-! ## Range of the decoded values -/

theorem decode12_val_le (data : List Byte) (do_swap : Bool) (n v : Nat)
    (h : decode12_val data do_swap n = .returned v) : v ≤ 4095 := by
  unfold decode12_val at h
  obtain ⟨buf, _, h⟩ := Outcome.bind_eq_returned h
  obtain ⟨c0, _, h⟩ := Outcome.bind_eq_returned h
  obtain ⟨c1, _, h⟩ := Outcome.bind_eq_returned h
  injection h with h
  rw [mask12] at h
  omega

theorem decode14_val_le (data : List Byte) (do_swap : Bool) (n v : Nat)
    (h : decode14_val data do_swap n = .returned v) : v ≤ 16383 := by
  unfold decode14_val at h
  obtain ⟨buf, _, h⟩ := Outcome.bind_eq_returned h
  obtain ⟨c0, _, h⟩ := Outcome.bind_eq_returned h
  obtain ⟨c1, _, h⟩ := Outcome.bind_eq_returned h
  obtain ⟨c2, _, h⟩ := Outcome.bind_eq_returned h
  injection h with h
  rw [mask14] at h
  omega

theorem wordOfBytes_le (host : Endian) (m0 m1 : Nat) (h0 : m0 < 256) (h1 : m1 < 256) :
    wordOfBytes host m0 m1 ≤ 65535 := by
  cases host <;> simp only [wordOfBytes] <;> omega

theorem toCharBits_lt (x : Int) : toCharBits x < 256 := by
  unfold toCharBits
  omega

theorem decode16_val_le (host : Endian) (data : List Byte) (do_swap : Bool) (n v : Nat)
    (h : decode16_val host data do_swap n = .returned v) : v ≤ 65535 := by
  unfold decode16_val at h
  obtain ⟨val, hval, h⟩ := Outcome.bind_eq_returned h
  unfold load16 at hval
  obtain ⟨m0, _, hval⟩ := Outcome.bind_eq_returned hval
  obtain ⟨m1, _, hval⟩ := Outcome.bind_eq_returned hval
  injection hval with hval
  injection h with h
  subst h
  cases do_swap with
  | true => exact wordOfBytes_le host _ _ (toCharBits_lt _) (toCharBits_lt _)
  | false =>
    rw [← hval]
    exact wordOfBytes_le host _ _ m0.isLt m1.isLt

/-- A returning `DecodeToHDR` went through one of the three decoders and
changed nothing but `image`. -/
theorem DecodeToHDR_returned_inv (host : Endian) (raw raw1 : RAWImage) (swap_endian : Bool)
    (h : DecodeToHDR host raw swap_endian = .returned raw1) :
    ∃ img, raw1 = { raw with image := img } ∧
      ((raw.bits = 12 ∧ decode12_hdr (resize raw.image (raw.width * raw.height) 0) raw.data
          raw.width raw.height swap_endian = .returned img) ∨
        (raw.bits = 14 ∧ decode14_hdr (resize raw.image (raw.width * raw.height) 0) raw.data
          raw.width raw.height swap_endian = .returned img) ∨
        (raw.bits = 16 ∧ decode16_hdr host (resize raw.image (raw.width * raw.height) 0)
          raw.data raw.width raw.height swap_endian = .returned img)) := by
  unfold DecodeToHDR at h
  simp only [] at h
  split at h
  · rename_i hb
    obtain ⟨img, hd, h⟩ := Outcome.bind_eq_returned h
    injection h with h
    exact ⟨img, h.symm, Or.inl ⟨hb, hd⟩⟩
  · split at h
    · rename_i hb
      obtain ⟨img, hd, h⟩ := Outcome.bind_eq_returned h
      injection h with h
      exact ⟨img, h.symm, Or.inr (Or.inl ⟨hb, hd⟩)⟩
    · split at h
      · rename_i hb
        obtain ⟨img, hd, h⟩ := Outcome.bind_eq_returned h
        injection h with h
        exact ⟨img, h.symm, Or.inr (Or.inr ⟨hb, hd⟩)⟩
      · cases h

/-- C5: range invariant of the decoded image.  Whenever `DecodeToHDR`
returns, for any buffer, width, height, swap flag and host, the bit depth
`b` is 12, 14 or 16, the image has exactly `width * height` entries and
every entry `v` satisfies `v ≤ 2^b - 1`: at most 4095 for 12 bits, 16383 for
14 bits and 65535 for 16 bits. -/
theorem DecodeToHDR_range (host : Endian) (raw raw1 : RAWImage) (swap_endian : Bool)
    (h : DecodeToHDR host raw swap_endian = .returned raw1) :
    (raw.bits = 12 ∨ raw.bits = 14 ∨ raw.bits = 16) ∧
      raw1.image.length = raw.width * raw.height ∧
      (∀ v, v ∈ raw1.image → v ≤ 2 ^ raw.bits.toNat - 1) ∧
      (raw.bits = 12 → ∀ v, v ∈ raw1.image → v ≤ 4095) ∧
      (raw.bits = 14 → ∀ v, v ∈ raw1.image → v ≤ 16383) ∧
      (raw.bits = 16 → ∀ v, v ∈ raw1.image → v ≤ 65535) := by
  obtain ⟨img, hraw, hdec⟩ := DecodeToHDR_returned_inv host raw raw1 swap_endian h
  subst hraw
  simp only
  rcases hdec with ⟨hb, hd⟩ | ⟨hb, hd⟩ | ⟨hb, hd⟩
  · obtain ⟨hl, hm⟩ := pixelLoops_returned_mem _ _ _ _ _ (length_resize _ _ _) hd
    have hv : ∀ v, v ∈ img → v ≤ 4095 := by
      intro v hv
      obtain ⟨n, _, hn⟩ := hm v hv
      exact decode12_val_le _ _ _ _ hn
    refine ⟨Or.inl hb, hl, ?_, fun _ => hv, ?_, ?_⟩
    · rw [hb]; exact hv
    · rw [hb]; intro hc; cases hc
    · rw [hb]; intro hc; cases hc
  · obtain ⟨hl, hm⟩ := pixelLoops_returned_mem _ _ _ _ _ (length_resize _ _ _) hd
    have hv : ∀ v, v ∈ img → v ≤ 16383 := by
      intro v hv
      obtain ⟨n, _, hn⟩ := hm v hv
      exact decode14_val_le _ _ _ _ hn
    refine ⟨Or.inr (Or.inl hb), hl, ?_, ?_, fun _ => hv, ?_⟩
    · rw [hb]; exact hv
    · rw [hb]; intro hc; cases hc
    · rw [hb]; intro hc; cases hc
  · obtain ⟨hl, hm⟩ := pixelLoops_returned_mem _ _ _ _ _ (length_resize _ _ _) hd
    have hv : ∀ v, v ∈ img → v ≤ 65535 := by
      intro v hv
      obtain ⟨n, _, hn⟩ := hm v hv
      exact decode16_val_le _ _ _ _ _ hn
    refine ⟨Or.inr (Or.inr hb), hl, ?_, ?_, ?_, fun _ => hv⟩
    · rw [hb]; exact hv
    · rw [hb]; intro hc; cases hc
    · rw [hb]; intro hc; cases hc

/-! ## The normalizer -/

theorem outRow_lt {h y : Nat} (flipY : Bool) (hy : y < h) : outRow h flipY y < h := by
  unfold outRow
  split <;> omega

theorem outRow_outRow {h y : Nat} (flipY : Bool) (hy : y < h) :
    outRow h flipY (outRow h flipY y) = y := by
  unfold outRow
  cases flipY
  · simp
  · simp only [if_true]
    omega

theorem srcIndex_out {w h y x : Nat} (flipY : Bool) (hy : y < h) (hx : x < w) :
    srcIndex w h flipY (outRow h flipY y * w + x) = y * w + x := by
  have hw : 0 < w := by omega
  unfold srcIndex
  have h1 : (outRow h flipY y * w + x) / w = outRow h flipY y := by
    rw [Nat.add_comm, Nat.add_mul_div_right _ _ hw, Nat.div_eq_of_lt hx, Nat.zero_add]
  have h2 : (outRow h flipY y * w + x) % w = x := by
    rw [Nat.add_comm, Nat.add_mul_mod_self_right, Nat.mod_eq_of_lt hx]
  rw [h1, h2, outRow_outRow flipY hy]

/-- One iteration of the loops of `Develop`: the three channels of the
output pixel are written, nothing else changes. -/
theorem developPixel_spec (raw : RAWImage) (intensity inv_scale : ℚ) (flipY : Bool)
    (y x : Nat) (fb : List ℚ) (hy : y < raw.height) (hx : x < raw.width)
    (himg : raw.width * raw.height ≤ raw.image.length)
    (hfb : fb.length = raw.width * raw.height * 3) :
    ∃ fb1, developPixel raw intensity inv_scale flipY y x fb = .returned fb1 ∧
      fb1.length = raw.width * raw.height * 3 ∧
      (∀ j, j / 3 = outRow raw.height flipY y * raw.width + x →
        fb1[j]? = some (developValue raw intensity inv_scale (y * raw.width + x))) ∧
      (∀ j, ¬ (j / 3 = outRow raw.height flipY y * raw.width + x) → fb1[j]? = fb[j]?) := by
  have hn : y * raw.width + x < raw.width * raw.height := lin_lt hy hx
  have hp : outRow raw.height flipY y * raw.width + x < raw.width * raw.height :=
    lin_lt (outRow_lt flipY hy) hx
  have hload : load raw.image (y * raw.width + x) =
      .returned (raw.image.getD (y * raw.width + x) 0) := by
    have hlt : y * raw.width + x < raw.image.length := by omega
    simp [load, List.getD, List.getElem?_eq_getElem hlt]
  unfold developPixel
  simp only [hload, Outcome.bind]
  change ∃ fb1, ((store fb (3 * (outRow raw.height flipY y * raw.width + x) + 0)
      (developValue raw intensity inv_scale (y * raw.width + x))).bind fun fb =>
    (store fb (3 * (outRow raw.height flipY y * raw.width + x) + 1)
      (developValue raw intensity inv_scale (y * raw.width + x))).bind fun fb =>
    store fb (3 * (outRow raw.height flipY y * raw.width + x) + 2)
      (developValue raw intensity inv_scale (y * raw.width + x))) = .returned fb1 ∧ _
  generalize outRow raw.height flipY y * raw.width + x = p at hp ⊢
  generalize developValue raw intensity inv_scale (y * raw.width + x) = q
  rw [store_of_lt _ _ _ (by omega)]
  simp only [Outcome.bind]
  rw [store_of_lt _ _ _ (by simp only [List.length_set]; omega)]
  simp only [Outcome.bind]
  rw [store_of_lt _ _ _ (by simp only [List.length_set]; omega)]
  refine ⟨_, rfl, by simp only [List.length_set]; exact hfb, ?_, ?_⟩
  · intro j hj
    simp only [List.getElem?_set, List.length_set]
    have hj3 : j = 3 * p + 0 ∨ j = 3 * p + 1 ∨ j = 3 * p + 2 := by omega
    rcases hj3 with h | h | h
    · subst h
      rw [if_neg (by omega), if_neg (by omega), if_pos rfl, if_pos (by omega)]
    · subst h
      rw [if_neg (by omega), if_pos rfl, if_pos (by omega)]
    · subst h
      rw [if_pos rfl, if_pos (by omega)]
  · intro j hj
    simp only [List.getElem?_set, List.length_set]
    rw [if_neg (by omega), if_neg (by omega), if_neg (by omega)]

/-- What `Develop` leaves in the framebuffer: it returns, the framebuffer
has `width * height * 3` entries, and the three channels of the output pixel
`(x, Y)`, `Y` the output row of `y`, hold the value computed from
`image[y * width + x]`. -/
theorem Develop_spec (raw : RAWImage) (intensity : ℚ) (flipY : Bool)
    (himg : raw.width * raw.height ≤ raw.image.length) :
    ∃ fb, Develop raw intensity flipY = .returned { raw with framebuffer := fb } ∧
      fb.length = raw.width * raw.height * 3 ∧
      ∀ y x c, y < raw.height → x < raw.width → c < 3 →
        fb[3 * (outRow raw.height flipY y * raw.width + x) + c]? =
          some (developValue raw intensity
            (1 / (((raw.dng_info.white_level - raw.dng_info.black_level : Int)) : ℚ))
            (y * raw.width + x)) := by
  have hfb0 : (if raw.framebuffer.length ≠ raw.width * raw.height * 3 then
      resize raw.framebuffer (raw.width * raw.height * 3) 0
    else raw.framebuffer).length = raw.width * raw.height * 3 := by
    split
    · exact length_resize _ _ _
    · rename_i hne
      exact not_not.mp hne
  generalize hinv : (1 / (((raw.dng_info.white_level - raw.dng_info.black_level : Int)) : ℚ)) = inv
  obtain ⟨out, ho, hlo, hA, _⟩ :=
    forLoop_scatter
      (fun y fb => forLoop (developPixel raw intensity inv flipY y) 0 raw.width fb)
      (fun y j => ∃ x, 0 ≤ x ∧ x < 0 + raw.width ∧
        j / 3 = outRow raw.height flipY y * raw.width + x)
      (fun j => developValue raw intensity inv (srcIndex raw.width raw.height flipY (j / 3)))
      (raw.width * raw.height * 3) raw.height 0
      (by
        intro y _ hy s hs
        exact forLoop_scatter (developPixel raw intensity inv flipY y)
          (fun x j => j / 3 = outRow raw.height flipY y * raw.width + x)
          (fun j => developValue raw intensity inv (srcIndex raw.width raw.height flipY (j / 3)))
          (raw.width * raw.height * 3) raw.width 0
          (by
            intro x _ hx t ht
            obtain ⟨t1, h1, h2, h3, h4⟩ := developPixel_spec raw intensity inv flipY y x t
              (by omega) (by omega) himg ht
            refine ⟨t1, h1, h2, ?_, h4⟩
            intro j hj
            rw [h3 j hj]
            simp only [hj]
            rw [srcIndex_out flipY (by omega) (by omega)])
          s hs)
      _ hfb0
  refine ⟨out, ?_, hlo, ?_⟩
  · unfold Develop
    simp only [hinv]
    rw [ho]
    rfl
  · intro y x c hy hx hc
    rw [hA _ ⟨y, Nat.zero_le _, by omega, x, Nat.zero_le _, by omega, by omega⟩]
    have hd : (3 * (outRow raw.height flipY y * raw.width + x) + c) / 3 =
        outRow raw.height flipY y * raw.width + x := by omega
    simp only [hd]
    rw [srcIndex_out flipY hy hx]

theorem DecodeToHDR_range_witness :
    DecodeToHDR Endian.little sampleRaw12 false =
        .returned { sampleRaw12 with image := [0x123, 0x456] } ∧
      ((sampleRaw12.bits = 12 ∨ sampleRaw12.bits = 14 ∨ sampleRaw12.bits = 16) ∧
        ({ sampleRaw12 with image := [0x123, 0x456] } : RAWImage).image.length =
          sampleRaw12.width * sampleRaw12.height ∧
        (∀ v, v ∈ ({ sampleRaw12 with image := [0x123, 0x456] } : RAWImage).image →
          v ≤ 2 ^ sampleRaw12.bits.toNat - 1) ∧
        (sampleRaw12.bits = 12 →
          ∀ v, v ∈ ({ sampleRaw12 with image := [0x123, 0x456] } : RAWImage).image → v ≤ 4095) ∧
        (sampleRaw12.bits = 14 →
          ∀ v, v ∈ ({ sampleRaw12 with image := [0x123, 0x456] } : RAWImage).image → v ≤ 16383) ∧
        (sampleRaw12.bits = 16 →
          ∀ v, v ∈ ({ sampleRaw12 with image := [0x123, 0x456] } : RAWImage).image →
            v ≤ 65535)) :=
  ⟨by decide, DecodeToHDR_range Endian.little sampleRaw12 _ false (by decide)⟩

/-- C6: the per-pixel map of `Develop`.  With `whiteLevel > blackLevel`, an
image of (at least) `width * height` samples and `flipY = false`, `Develop`
returns with a framebuffer of exactly `width * height * 3` entries, and for
every pixel `(x, y)` the entries `3 * (y * width + x) + c`, `c = 0, 1, 2`,
all equal `(image[y * width + x] - blackLevel) * intensity / (whiteLevel - blackLevel)`
in exact arithmetic. -/
theorem Develop_pixel_map (raw : RAWImage) (intensity : ℚ)
    (hwb : raw.dng_info.black_level < raw.dng_info.white_level)
    (himg : raw.width * raw.height ≤ raw.image.length) :
    ∃ fb, Develop raw intensity false = .returned { raw with framebuffer := fb } ∧
      fb.length = raw.width * raw.height * 3 ∧
      ∀ x y, x < raw.width → y < raw.height →
        ∃ s : Nat, raw.image[y * raw.width + x]? = some s ∧
          ∀ c, c < 3 →
            fb[3 * (y * raw.width + x) + c]? =
              some (((s : ℚ) - (raw.dng_info.black_level : ℚ)) * intensity /
                ((raw.dng_info.white_level : ℚ) - (raw.dng_info.black_level : ℚ))) := by
  obtain ⟨fb, hret, hlen, hpix⟩ := Develop_spec raw intensity false himg
  refine ⟨fb, hret, hlen, ?_⟩
  intro x y hx hy
  have hn : y * raw.width + x < raw.image.length := by
    have := @lin_lt raw.width raw.height y x hy hx
    omega
  refine ⟨raw.image.get ⟨y * raw.width + x, hn⟩, List.getElem?_eq_getElem hn, ?_⟩
  intro c hc
  have hp := hpix y x c hy hx hc
  have hrow : outRow raw.height false y = y := rfl
  rw [hrow] at hp
  rw [hp]
  congr 1
  have hne : ((raw.dng_info.white_level : ℚ) - (raw.dng_info.black_level : ℚ)) ≠ 0 := by
    have : (raw.dng_info.black_level : ℚ) < (raw.dng_info.white_level : ℚ) := by
      exact_mod_cast hwb
    linarith
  have hg : raw.image.getD (y * raw.width + x) 0 = raw.image.get ⟨y * raw.width + x, hn⟩ := by
    simp [List.getD, List.getElem?_eq_getElem hn]
  unfold developValue
  rw [hg]
  push_cast
  field_simp
  ring

theorem Develop_pixel_map_witness :
    (sampleDecoded12.dng_info.black_level < sampleDecoded12.dng_info.white_level ∧
      sampleDecoded12.width * sampleDecoded12.height ≤ sampleDecoded12.image.length) ∧
    (∃ fb, Develop sampleDecoded12 1 false =
        .returned { sampleDecoded12 with framebuffer := fb } ∧
      fb.length = sampleDecoded12.width * sampleDecoded12.height * 3 ∧
      ∀ x y, x < sampleDecoded12.width → y < sampleDecoded12.height →
        ∃ s : Nat, sampleDecoded12.image[y * sampleDecoded12.width + x]? = some s ∧
          ∀ c, c < 3 →
            fb[3 * (y * sampleDecoded12.width + x) + c]? =
              some (((s : ℚ) - (sampleDecoded12.dng_info.black_level : ℚ)) * 1 /
                ((sampleDecoded12.dng_info.white_level : ℚ) -
                  (sampleDecoded12.dng_info.black_level : ℚ)))) ∧
    Develop sampleDecoded12 1 false =
      .returned { sampleDecoded12 with
        framebuffer := [0x123 / 4095, 0x123 / 4095, 0x123 / 4095,
          0x456 / 4095, 0x456 / 4095, 0x456 / 4095] } :=
  ⟨by decide, Develop_pixel_map sampleDecoded12 1 (by decide) (by decide), by decide!⟩

/-- C7: the vertical flip of `Develop`.  For an image of (at least)
`width * height` samples both calls return, and for every row `y < height`,
column `x < width` and channel `c < 3`: the buffer made with `flipY = true`
holds at row `height - 1 - y` what the buffer made with `flipY = false`
holds at row `y`; the same with the two buffers exchanged, so reversing the
rows twice gives the buffer back; and with `flipY = false` row `y` holds the
value computed from source row `y` (stated for distinct levels, where the
exact arithmetic is that of the source). -/
theorem Develop_flip (raw : RAWImage) (intensity : ℚ)
    (himg : raw.width * raw.height ≤ raw.image.length) :
    ∃ fbF fbT,
      Develop raw intensity false = .returned { raw with framebuffer := fbF } ∧
      Develop raw intensity true = .returned { raw with framebuffer := fbT } ∧
      fbF.length = raw.width * raw.height * 3 ∧ fbT.length = raw.width * raw.height * 3 ∧
      ∀ y x c, y < raw.height → x < raw.width → c < 3 →
        fbT[3 * ((raw.height - 1 - y) * raw.width + x) + c]? =
            fbF[3 * (y * raw.width + x) + c]? ∧
          fbF[3 * ((raw.height - 1 - y) * raw.width + x) + c]? =
            fbT[3 * (y * raw.width + x) + c]? ∧
          (raw.dng_info.white_level ≠ raw.dng_info.black_level →
            fbF[3 * (y * raw.width + x) + c]? =
              some (developValue raw intensity
                (1 / (((raw.dng_info.white_level - raw.dng_info.black_level : Int)) : ℚ))
                (y * raw.width + x))) := by
  obtain ⟨fbF, hF, hlF, hpF⟩ := Develop_spec raw intensity false himg
  obtain ⟨fbT, hT, hlT, hpT⟩ := Develop_spec raw intensity true himg
  refine ⟨fbF, fbT, hF, hT, hlF, hlT, ?_⟩
  intro y x c hy hx hc
  have e1 : outRow raw.height true y = raw.height - 1 - y := by
    simp only [outRow, if_true]
    omega
  have e2 : outRow raw.height true (raw.height - 1 - y) = y := by
    simp only [outRow, if_true]
    omega
  have e3 : ∀ z, outRow raw.height false z = z := fun z => rfl
  have h1 := hpT y x c hy hx hc
  have h2 := hpF y x c hy hx hc
  have h3 := hpT (raw.height - 1 - y) x c (by omega) hx hc
  have h4 := hpF (raw.height - 1 - y) x c (by omega) hx hc
  rw [e1] at h1
  rw [e3] at h2 h4
  rw [e2] at h3
  exact ⟨h1.trans h2.symm, h4.trans h3.symm, fun _ => h2⟩

theorem Develop_flip_witness :
    (sampleDecoded2x2.width * sampleDecoded2x2.height ≤ sampleDecoded2x2.image.length) ∧
    (∃ fbF fbT,
      Develop sampleDecoded2x2 1 false = .returned { sampleDecoded2x2 with framebuffer := fbF } ∧
      Develop sampleDecoded2x2 1 true = .returned { sampleDecoded2x2 with framebuffer := fbT } ∧
      fbF.length = sampleDecoded2x2.width * sampleDecoded2x2.height * 3 ∧
      fbT.length = sampleDecoded2x2.width * sampleDecoded2x2.height * 3 ∧
      ∀ y x c, y < sampleDecoded2x2.height → x < sampleDecoded2x2.width → c < 3 →
        fbT[3 * ((sampleDecoded2x2.height - 1 - y) * sampleDecoded2x2.width + x) + c]? =
            fbF[3 * (y * sampleDecoded2x2.width + x) + c]? ∧
          fbF[3 * ((sampleDecoded2x2.height - 1 - y) * sampleDecoded2x2.width + x) + c]? =
            fbT[3 * (y * sampleDecoded2x2.width + x) + c]? ∧
          (sampleDecoded2x2.dng_info.white_level ≠ sampleDecoded2x2.dng_info.black_level →
            fbF[3 * (y * sampleDecoded2x2.width + x) + c]? =
              some (developValue sampleDecoded2x2 1
                (1 / (((sampleDecoded2x2.dng_info.white_level -
                  sampleDecoded2x2.dng_info.black_level : Int)) : ℚ))
                (y * sampleDecoded2x2.width + x)))) ∧
    Develop sampleDecoded2x2 1 false =
      .returned { sampleDecoded2x2 with
        framebuffer := [1 / 4, 1 / 4, 1 / 4, 1 / 2, 1 / 2, 1 / 2,
          3 / 4, 3 / 4, 3 / 4, 1, 1, 1] } ∧
    Develop sampleDecoded2x2 1 true =
      .returned { sampleDecoded2x2 with
        framebuffer := [3 / 4, 3 / 4, 3 / 4, 1, 1, 1,
          1 / 4, 1 / 4, 1 / 4, 1 / 2, 1 / 2, 1 / 2] } :=
  ⟨by decide, Develop_flip sampleDecoded2x2 1 (by decide), by decide!, by decide!⟩

theorem loadBuf12_benign (data : List Byte) (addr3 : Nat) (do_swap : Bool) :
    (loadBuf12 data addr3 do_swap).benign := by
  unfold loadBuf12
  split
  · split <;>
      exact Outcome.benign_bind (load_benign _ _) fun _ =>
        Outcome.benign_bind (load_benign _ _) fun _ =>
        Outcome.benign_bind (load_benign _ _) fun _ => trivial
  · exact Outcome.benign_bind (load_benign _ _) fun _ =>
      Outcome.benign_bind (load_benign _ _) fun _ =>
      Outcome.benign_bind (load_benign _ _) fun _ => trivial

theorem decode12_val_benign (data : List Byte) (do_swap : Bool) (n : Nat) :
    (decode12_val data do_swap n).benign :=
  Outcome.benign_bind (loadBuf12_benign _ _ _) fun _ =>
    Outcome.benign_bind (load_benign _ _) fun _ =>
    Outcome.benign_bind (load_benign _ _) fun _ => trivial

theorem loadBuf14_benign (data : List Byte) (addr7 : Nat) (do_swap : Bool) :
    (loadBuf14 data addr7 do_swap).benign := by
  unfold loadBuf14
  split
  · split <;>
      exact Outcome.benign_bind (load_benign _ _) fun _ =>
        Outcome.benign_bind (load_benign _ _) fun _ =>
        Outcome.benign_bind (load_benign _ _) fun _ =>
        Outcome.benign_bind (load_benign _ _) fun _ =>
        Outcome.benign_bind (load_benign _ _) fun _ =>
        Outcome.benign_bind (load_benign _ _) fun _ =>
        Outcome.benign_bind (load_benign _ _) fun _ => trivial
  · exact Outcome.benign_bind (load_benign _ _) fun _ =>
      Outcome.benign_bind (load_benign _ _) fun _ =>
      Outcome.benign_bind (load_benign _ _) fun _ =>
      Outcome.benign_bind (load_benign _ _) fun _ =>
      Outcome.benign_bind (load_benign _ _) fun _ =>
      Outcome.benign_bind (load_benign _ _) fun _ =>
      Outcome.benign_bind (load_benign _ _) fun _ => trivial

theorem decode14_val_benign (data : List Byte) (do_swap : Bool) (n : Nat) :
    (decode14_val data do_swap n).benign :=
  Outcome.benign_bind (loadBuf14_benign _ _ _) fun _ =>
    Outcome.benign_bind (load_benign _ _) fun _ =>
    Outcome.benign_bind (load_benign _ _) fun _ =>
    Outcome.benign_bind (load_benign _ _) fun _ => trivial

theorem decode16_val_benign (host : Endian) (data : List Byte) (do_swap : Bool) (n : Nat) :
    (decode16_val host data do_swap n).benign :=
  Outcome.benign_bind
    (Outcome.benign_bind (load_benign _ _) fun _ =>
      Outcome.benign_bind (load_benign _ _) fun _ => trivial)
    fun _ => trivial

theorem DecodeToHDR_bits12 (host : Endian) (raw : RAWImage) (swap_endian : Bool)
    (hb : raw.bits = 12) :
    DecodeToHDR host raw swap_endian =
      (decode12_hdr (resize raw.image (raw.width * raw.height) 0) raw.data raw.width raw.height
        swap_endian).bind fun img => .returned { raw with image := img } := by
  unfold DecodeToHDR
  simp only [hb, if_true]

theorem DecodeToHDR_bits14 (host : Endian) (raw : RAWImage) (swap_endian : Bool)
    (hb : raw.bits = 14) :
    DecodeToHDR host raw swap_endian =
      (decode14_hdr (resize raw.image (raw.width * raw.height) 0) raw.data raw.width raw.height
        swap_endian).bind fun img => .returned { raw with image := img } := by
  unfold DecodeToHDR
  simp only [hb]
  rfl

theorem DecodeToHDR_bits16 (host : Endian) (raw : RAWImage) (swap_endian : Bool)
    (hb : raw.bits = 16) :
    DecodeToHDR host raw swap_endian =
      (decode16_hdr host (resize raw.image (raw.width * raw.height) 0) raw.data raw.width
        raw.height swap_endian).bind fun img => .returned { raw with image := img } := by
  unfold DecodeToHDR
  simp only [hb]
  rfl

theorem DecodeToHDR_other_bits (host : Endian) (raw : RAWImage) (swap_endian : Bool)
    (h12 : raw.bits ≠ 12) (h14 : raw.bits ≠ 14) (h16 : raw.bits ≠ 16) :
    DecodeToHDR host raw swap_endian = .terminated := by
  unfold DecodeToHDR
  simp only [h12, h14, h16, if_false]

/-- With a bit depth of 12, 14 or 16, `DecodeToHDR` returns or runs into an
out-of-bounds load. -/
theorem DecodeToHDR_benign (host : Endian) (raw : RAWImage) (swap_endian : Bool)
    (hb : raw.bits = 12 ∨ raw.bits = 14 ∨ raw.bits = 16) :
    (DecodeToHDR host raw swap_endian).benign := by
  rcases hb with hb | hb | hb
  · rw [DecodeToHDR_bits12 host raw swap_endian hb]
    exact Outcome.benign_bind (pixelLoops_benign _ _ _ _ (decode12_val_benign _ _)) fun _ => trivial
  · rw [DecodeToHDR_bits14 host raw swap_endian hb]
    exact Outcome.benign_bind (pixelLoops_benign _ _ _ _ (decode14_val_benign _ _)) fun _ => trivial
  · rw [DecodeToHDR_bits16 host raw swap_endian hb]
    exact Outcome.benign_bind (pixelLoops_benign _ _ _ _ (decode16_val_benign _ _ _))
      fun _ => trivial

/-- C10, as the code falsifies it: with a bit depth of 8 `DecodeToHDR` ends
the process (`assert(0); exit(-1);`); it gives no `UnsupportedBitDepth`
error back to its caller. -/
theorem depth8Raw_ends_process :
    DecodeToHDR Endian.little depth8Raw false = .terminated ∧
      DecodeToHDR Endian.little depth8Raw false ≠ .reported ErrorKind.UnsupportedBitDepth := by
  decide

/-- C10, amended: `DecodeToHDR` takes its failing branch exactly when the
bit depth is not 12, 14 or 16; in that branch it ends the process and
returns no image; it never hands an error back to its caller. -/
theorem DecodeToHDR_terminated_iff (host : Endian) (raw : RAWImage) (swap_endian : Bool) :
    (DecodeToHDR host raw swap_endian = .terminated ↔
        ¬ (raw.bits = 12 ∨ raw.bits = 14 ∨ raw.bits = 16)) ∧
      (¬ (raw.bits = 12 ∨ raw.bits = 14 ∨ raw.bits = 16) →
        ∀ r, DecodeToHDR host raw swap_endian ≠ .returned r) ∧
      (∀ e, DecodeToHDR host raw swap_endian ≠ .reported e) := by
  by_cases hb : raw.bits = 12 ∨ raw.bits = 14 ∨ raw.bits = 16
  · have hben := DecodeToHDR_benign host raw swap_endian hb
    refine ⟨⟨?_, fun hn => absurd hb hn⟩, fun hn => absurd hb hn, ?_⟩
    · intro ht
      rw [ht] at hben
      exact hben.elim
    · intro e he
      rw [he] at hben
      exact hben.elim
  · have ht : DecodeToHDR host raw swap_endian = .terminated :=
      DecodeToHDR_other_bits host raw swap_endian (fun h => hb (Or.inl h))
        (fun h => hb (Or.inr (Or.inl h))) (fun h => hb (Or.inr (Or.inr h)))
    refine ⟨⟨fun _ => hb, fun _ => ht⟩, ?_, ?_⟩
    · intro _ r hr
      rw [ht] at hr
      cases hr
    · intro e he
      rw [ht] at he
      cases he

/-! ## The normalizer: the whole framebuffer -/

theorem pixel_of_slot {w h j : Nat} (hj : j < w * h * 3) :
    j / 3 / w < h ∧ j / 3 % w < w ∧ j % 3 < 3 ∧ j = 3 * (j / 3 / w * w + j / 3 % w) + j % 3 := by
  have hm : j / 3 < w * h := by omega
  have hw : 0 < w := by
    rcases Nat.eq_zero_or_pos w with h0 | h0
    · rw [h0, Nat.zero_mul] at hm; omega
    · exact h0
  have h1 : j / 3 / w < h := Nat.div_lt_of_lt_mul hm
  have h2 : j / 3 % w < w := Nat.mod_lt _ hw
  have h3 := Nat.div_add_mod (j / 3) w
  rw [Nat.mul_comm] at h3
  refine ⟨h1, h2, by omega, ?_⟩
  rw [h3]
  omega

/-- With an image of (at least) `width * height` samples `Develop` returns
and its framebuffer is `developedBuffer`, whatever the framebuffer was. -/
theorem Develop_eq_developedBuffer (raw : RAWImage) (intensity : ℚ) (flipY : Bool)
    (himg : raw.width * raw.height ≤ raw.image.length) :
    Develop raw intensity flipY =
      .returned { raw with framebuffer := developedBuffer raw intensity flipY } := by
  obtain ⟨fb, hret, hlen, hpix⟩ := Develop_spec raw intensity flipY himg
  rw [hret]
  have he : fb = developedBuffer raw intensity flipY := by
    apply List.ext_getElem?
    intro j
    unfold developedBuffer
    by_cases hj : j < raw.width * raw.height * 3
    · obtain ⟨h1, h2, h3, h4⟩ := pixel_of_slot hj
      have hp := hpix (outRow raw.height flipY (j / 3 / raw.width)) (j / 3 % raw.width) (j % 3)
        (outRow_lt flipY h1) h2 h3
      rw [outRow_outRow flipY h1, ← h4] at hp
      rw [hp, List.getElem?_map, List.getElem?_range hj]
      rfl
    · rw [List.getElem?_eq_none (by omega), List.getElem?_eq_none (by simp; omega)]
  rw [he]

theorem developedBuffer_congr (raw raw2 : RAWImage) (intensity : ℚ) (flipY : Bool)
    (hw : raw2.width = raw.width) (hh : raw2.height = raw.height)
    (hi : raw2.image = raw.image) (hd : raw2.dng_info = raw.dng_info) :
    developedBuffer raw2 intensity flipY = developedBuffer raw intensity flipY := by
  unfold developedBuffer developValue
  rw [hw, hh, hi, hd]

/-- C11: `Develop` regenerates the whole framebuffer.  For two image records
that agree on image, width, height and levels (their framebuffers, of any
size and content, may differ), the calls with the same intensity and `flipY`
return the same framebuffer; it has `width * height * 3` entries, each of
which is the value computed from the image; and a second call on the result
of the first leaves it as it is. -/
theorem Develop_regenerates (raw raw2 : RAWImage) (intensity : ℚ) (flipY : Bool)
    (hw : raw2.width = raw.width) (hh : raw2.height = raw.height)
    (hi : raw2.image = raw.image) (hd : raw2.dng_info = raw.dng_info)
    (himg : raw.width * raw.height ≤ raw.image.length) :
    ∃ fb, Develop raw intensity flipY = .returned { raw with framebuffer := fb } ∧
      Develop raw2 intensity flipY = .returned { raw2 with framebuffer := fb } ∧
      fb.length = raw.width * raw.height * 3 ∧
      (∀ j, j < raw.width * raw.height * 3 →
        fb[j]? = some (developValue raw intensity
          (1 / (((raw.dng_info.white_level - raw.dng_info.black_level : Int)) : ℚ))
          (srcIndex raw.width raw.height flipY (j / 3)))) ∧
      Develop { raw with framebuffer := fb } intensity flipY =
        .returned { raw with framebuffer := fb } := by
  refine ⟨developedBuffer raw intensity flipY,
    Develop_eq_developedBuffer raw intensity flipY himg, ?_, ?_, ?_, ?_⟩
  · rw [Develop_eq_developedBuffer raw2 intensity flipY (by rw [hw, hh, hi]; exact himg),
      developedBuffer_congr raw raw2 intensity flipY hw hh hi hd]
  · simp [developedBuffer]
  · intro j hj
    unfold developedBuffer
    rw [List.getElem?_map, List.getElem?_range hj]
    rfl
  · exact Develop_eq_developedBuffer { raw with framebuffer := _ } intensity flipY himg

theorem Develop_regenerates_witness :
    (sampleDecoded12Stale.width = sampleDecoded12.width ∧
      sampleDecoded12Stale.height = sampleDecoded12.height ∧
      sampleDecoded12Stale.image = sampleDecoded12.image ∧
      sampleDecoded12Stale.dng_info = sampleDecoded12.dng_info ∧
      sampleDecoded12.width * sampleDecoded12.height ≤ sampleDecoded12.image.length) ∧
    (∃ fb, Develop sampleDecoded12 1 true = .returned { sampleDecoded12 with framebuffer := fb } ∧
      Develop sampleDecoded12Stale 1 true =
        .returned { sampleDecoded12Stale with framebuffer := fb } ∧
      fb.length = sampleDecoded12.width * sampleDecoded12.height * 3 ∧
      (∀ j, j < sampleDecoded12.width * sampleDecoded12.height * 3 →
        fb[j]? = some (developValue sampleDecoded12 1
          (1 / (((sampleDecoded12.dng_info.white_level -
            sampleDecoded12.dng_info.black_level : Int)) : ℚ))
          (srcIndex sampleDecoded12.width sampleDecoded12.height true (j / 3)))) ∧
      Develop { sampleDecoded12 with framebuffer := fb } 1 true =
        .returned { sampleDecoded12 with framebuffer := fb }) ∧
    Develop sampleDecoded12Stale 1 true =
      .returned { sampleDecoded12 with
        framebuffer := [0x123 / 4095, 0x123 / 4095, 0x123 / 4095,
          0x456 / 4095, 0x456 / 4095, 0x456 / 4095] } :=
  ⟨by decide,
    Develop_regenerates sampleDecoded12 sampleDecoded12Stale 1 true rfl rfl rfl rfl (by decide),
    by decide!⟩

/-- C12: with `intensity = 0`, `whiteLevel > blackLevel` and an image of (at
least) `width * height` samples, `Develop` returns, for either `flipY`, a
framebuffer of `width * height * 3` entries that are all zero. -/
theorem Develop_zero_intensity (raw : RAWImage) (flipY : Bool)
    (_hwb : raw.dng_info.black_level < raw.dng_info.white_level)
    (himg : raw.width * raw.height ≤ raw.image.length) :
    ∃ fb, Develop raw 0 flipY = .returned { raw with framebuffer := fb } ∧
      fb.length = raw.width * raw.height * 3 ∧
      (∀ v, v ∈ fb → v = 0) ∧
      fb = List.replicate (raw.width * raw.height * 3) 0 := by
  have hall : ∀ v, v ∈ developedBuffer raw 0 flipY → v = 0 := by
    intro v hv
    unfold developedBuffer at hv
    obtain ⟨j, _, hj⟩ := List.mem_map.mp hv
    rw [← hj]
    unfold developValue
    exact zero_mul _
  refine ⟨developedBuffer raw 0 flipY, Develop_eq_developedBuffer raw 0 flipY himg,
    by simp [developedBuffer], hall, ?_⟩
  rw [List.eq_replicate_iff]
  exact ⟨by simp [developedBuffer], hall⟩

theorem Develop_zero_intensity_witness :
    (sampleDecoded2x2.dng_info.black_level < sampleDecoded2x2.dng_info.white_level ∧
      sampleDecoded2x2.width * sampleDecoded2x2.height ≤ sampleDecoded2x2.image.length) ∧
    (∃ fb, Develop sampleDecoded2x2 0 true =
        .returned { sampleDecoded2x2 with framebuffer := fb } ∧
      fb.length = sampleDecoded2x2.width * sampleDecoded2x2.height * 3 ∧
      (∀ v, v ∈ fb → v = 0) ∧
      fb = List.replicate (sampleDecoded2x2.width * sampleDecoded2x2.height * 3) 0) :=
  ⟨by decide, Develop_zero_intensity sampleDecoded2x2 true (by decide) (by decide)⟩

/-- C18: `Develop` does not clamp.  With black level 64, white level 4095,
intensity 2 and the samples 4095 and 0 (a valid calibration, a non-negative
intensity, samples within 12 bits), the framebuffer holds the value 2, above
1, for the sample at the white level, and `-128/4031`, below 0, for the
sample below the black level. -/
theorem Develop_no_clamp :
    (unclampedRaw.dng_info.black_level < unclampedRaw.dng_info.white_level ∧
      (0 : ℚ) ≤ 2 ∧ (∀ s, s ∈ unclampedRaw.image → s ≤ 4095) ∧
      unclampedRaw.image[0]? = some unclampedRaw.dng_info.white_level.toNat) ∧
    Develop unclampedRaw 2 false =
      .returned { unclampedRaw with
        framebuffer := [2, 2, 2, -128 / 4031, -128 / 4031, -128 / 4031] } ∧
    (∃ v, v ∈ ([2, 2, 2, -128 / 4031, -128 / 4031, -128 / 4031] : List ℚ) ∧ 1 < v) ∧
    (∃ v, v ∈ ([2, 2, 2, -128 / 4031, -128 / 4031, -128 / 4031] : List ℚ) ∧ v < 0) := by
  refine ⟨by decide, by decide!, ⟨2, by simp, by norm_num⟩, ⟨-128 / 4031, by simp, by norm_num⟩⟩

/-- C19: the frame of `Develop`.  When the call returns, for any image
record, intensity and `flipY`, the record it leaves differs from the one it
was given in `framebuffer` only: image, data, width, height, bits,
components and the levels are the same. -/
theorem Develop_frame (raw raw1 : RAWImage) (intensity : ℚ) (flipY : Bool)
    (h : Develop raw intensity flipY = .returned raw1) :
    raw1.image = raw.image ∧ raw1.data = raw.data ∧ raw1.width = raw.width ∧
      raw1.height = raw.height ∧ raw1.bits = raw.bits ∧
      raw1.components = raw.components ∧ raw1.dng_info = raw.dng_info ∧
      raw1 = { raw with framebuffer := raw1.framebuffer } := by
  unfold Develop at h
  obtain ⟨fb, _, h⟩ := Outcome.bind_eq_returned h
  injection h with h
  subst h
  exact ⟨rfl, rfl, rfl, rfl, rfl, rfl, rfl, rfl⟩

theorem Develop_frame_witness :
    Develop sampleDecoded12 1 false = .returned sampleDeveloped12 ∧
    (sampleDeveloped12.image = sampleDecoded12.image ∧
      sampleDeveloped12.data = sampleDecoded12.data ∧
      sampleDeveloped12.width = sampleDecoded12.width ∧
      sampleDeveloped12.height = sampleDecoded12.height ∧
      sampleDeveloped12.bits = sampleDecoded12.bits ∧
      sampleDeveloped12.components = sampleDecoded12.components ∧
      sampleDeveloped12.dng_info = sampleDecoded12.dng_info ∧
      sampleDeveloped12 =
        { sampleDecoded12 with framebuffer := sampleDeveloped12.framebuffer }) :=
  ⟨by decide!, Develop_frame sampleDecoded12 sampleDeveloped12 1 false (by decide!)⟩

/-! ## The dispatcher and the decoders' loops -/

theorem Outcome.benign_cases {α : Type} {o : Outcome α} (h : o.benign) :
    (∃ a, o = .returned a) ∨ o = .outOfBounds := by
  cases o with
  | returned a => exact Or.inl ⟨a, rfl⟩
  | outOfBounds => exact Or.inr rfl
  | reported e => exact h.elim
  | terminated => exact h.elim

/-- The outcome of a decoder's loops depends on the number of samples and
on the values only: not on the shape, not on what the image held before. -/
theorem pixelLoops_congr (val : Nat → Outcome Nat) (hben : ∀ n, (val n).benign)
    (w h w1 h1 : Nat) (image image1 : List Nat) (hshape : w * h = w1 * h1)
    (hl : image.length = w * h) (hl1 : image1.length = w1 * h1) :
    pixelLoops val w h image = pixelLoops val w1 h1 image1 := by
  by_cases hall : ∀ n, n < w * h → ∃ v, val n = .returned v
  · rw [pixelLoops_returned_getD val w h image hl hall,
      pixelLoops_returned_getD val w1 h1 image1 hl1 (by rw [← hshape]; exact hall), hshape]
  · have hbad : ∃ n, n < w * h ∧ val n = .outOfBounds := by
      by_contra hno
      apply hall
      intro n hn
      rcases Outcome.benign_cases (hben n) with hr | ho
      · exact hr
      · exact absurd ⟨n, hn, ho⟩ hno
    rw [pixelLoops_outOfBounds val w h image hben hbad,
      pixelLoops_outOfBounds val w1 h1 image1 hben (by rw [← hshape]; exact hbad)]

/-- C13: the dispatcher delegates.  For `bits` 12, 14, 16 the outcome of
`DecodeToHDR` is the outcome of `decode12_hdr`, `decode14_hdr`,
`decode16_hdr` called on the data, width, height and swap flag of the record
(with any vector `image0` to receive the image), and the image it returns is
stored in the `image` field as it is. -/
theorem DecodeToHDR_delegates (host : Endian) (raw : RAWImage) (swap_endian : Bool)
    (image0 : List Nat) :
    (raw.bits = 12 →
      DecodeToHDR host raw swap_endian =
        (decode12_hdr image0 raw.data raw.width raw.height swap_endian).bind
          fun img => .returned { raw with image := img }) ∧
    (raw.bits = 14 →
      DecodeToHDR host raw swap_endian =
        (decode14_hdr image0 raw.data raw.width raw.height swap_endian).bind
          fun img => .returned { raw with image := img }) ∧
    (raw.bits = 16 →
      DecodeToHDR host raw swap_endian =
        (decode16_hdr host image0 raw.data raw.width raw.height swap_endian).bind
          fun img => .returned { raw with image := img }) := by
  refine ⟨fun hb => ?_, fun hb => ?_, fun hb => ?_⟩
  · rw [DecodeToHDR_bits12 host raw swap_endian hb]
    unfold decode12_hdr
    rw [pixelLoops_congr _ (decode12_val_benign _ _) _ _ _ _ _ (resize image0 _ 0) rfl
      (length_resize _ _ _) (length_resize _ _ _)]
  · rw [DecodeToHDR_bits14 host raw swap_endian hb]
    unfold decode14_hdr
    rw [pixelLoops_congr _ (decode14_val_benign _ _) _ _ _ _ _ (resize image0 _ 0) rfl
      (length_resize _ _ _) (length_resize _ _ _)]
  · rw [DecodeToHDR_bits16 host raw swap_endian hb]
    unfold decode16_hdr
    rw [pixelLoops_congr _ (decode16_val_benign _ _ _) _ _ _ _ _ (resize image0 _ 0) rfl
      (length_resize _ _ _) (length_resize _ _ _)]

theorem DecodeToHDR_delegates_witness :
    sampleRaw12.bits = 12 ∧
      DecodeToHDR Endian.little sampleRaw12 false =
        (decode12_hdr [7, 7, 7] sampleRaw12.data sampleRaw12.width sampleRaw12.height false).bind
          (fun img => .returned { sampleRaw12 with image := img }) ∧
      DecodeToHDR Endian.little sampleRaw12 false =
        .returned { sampleRaw12 with image := [0x123, 0x456] } :=
  ⟨by decide,
    (DecodeToHDR_delegates Endian.little sampleRaw12 false [7, 7, 7]).1 (by decide),
    by decide⟩

/-- The arithmetic right shift by eight is the floor division by 256. -/
theorem int_shiftRight_eight (x : Int) : x >>> (8 : Int) = x / 256 := by
  cases x with
  | ofNat m =>
    have h := Int.shiftRight_coe_nat m 8
    simp only [Nat.cast_ofNat, Int.ofNat_eq_coe] at h ⊢
    rw [h, Nat.shiftRight_eq_div_pow]
    omega
  | negSucc m =>
    have h := Int.shiftRight_negSucc m 8
    simp only [Nat.cast_ofNat] at h
    rw [h, Nat.shiftRight_eq_div_pow]
    simp only [Int.negSucc_eq]
    omega

theorem swap2_little (v : Nat) (hv : v < 65536) :
    swap2 Endian.little v = v % 256 * 256 + v / 256 := by
  unfold swap2 toShort toCharBits wordOfBytes
  simp only [int_shiftRight_eight]
  split <;> omega

theorem swap2_big (v : Nat) (hv : v < 65536) : swap2 Endian.big v = v := by
  unfold swap2 toShort toCharBits wordOfBytes
  simp only [int_shiftRight_eight]
  split <;> omega

theorem swap2_wordOfBytes (host : Endian) (m0 m1 : Nat) (h0 : m0 < 256) (h1 : m1 < 256) :
    swap2 host (wordOfBytes host m0 m1) = 256 * m0 + m1 := by
  cases host
  · rw [swap2_little _ (wordOfBytes_le _ _ _ h0 h1 |> Nat.lt_succ_of_le)]
    simp only [wordOfBytes]
    omega
  · rw [swap2_big _ (wordOfBytes_le _ _ _ h0 h1 |> Nat.lt_succ_of_le)]
    rfl

theorem decode16_val_swap (host : Endian) (data : List Byte) (n : Nat) (m0 m1 : Byte)
    (h0 : data[2 * n]? = some m0) (h1 : data[2 * n + 1]? = some m1) :
    decode16_val host data true n = .returned (256 * m0.val + m1.val) := by
  simp only [decode16_val, load16, load, h0, h1, Outcome.bind, if_true]
  rw [swap2_wordOfBytes host _ _ m0.isLt m1.isLt]

/-- C16, as the code falsifies it: `swap2` stores the high byte of its
argument at the lower address of its result and the low byte at the higher
address; a big-endian host reads these two bytes back as the argument.
There `swap2 0x1234` is `0x1234`, not `0x3412`, and `decode16_hdr` with swap
gives the entry it gives without swap. -/
theorem bigEndian_swap2_keeps_value :
    swap2 Endian.big 0x1234 = 0x1234 ∧
      swap2 Endian.big 0x1234 ≠ 0x1234 % 256 * 256 + 0x1234 / 256 ∧
      decode16_hdr Endian.big [] [0x12, 0x34] 1 1 true = .returned [0x1234] ∧
      decode16_hdr Endian.big [] [0x12, 0x34] 1 1 false = .returned [0x1234] := by
  decide

/-- C16, amended: the 16-bit swap.  On a little-endian host `swap2`
exchanges the two bytes of a 16-bit value, `swap2 v = (v % 256) * 256 + v / 256`;
on either host applying it twice gives the value back.  With a buffer of at
least `2 * width * height` bytes, `decode16_hdr` with swap returns an image
whose entry `n` is `256 * data[2n] + data[2n+1]`, on either host; on a
little-endian host this is the byte-swapped value of the entry that the
call without swap gives. -/
theorem swap2_decode16 (host : Endian) (image : List Nat) (data : List Byte)
    (width height v : Nat) (hv : v < 65536) (hlen : 2 * width * height ≤ data.length) :
    swap2 Endian.little v = v % 256 * 256 + v / 256 ∧
      swap2 host (swap2 host v) = v ∧
      ∃ out, decode16_hdr host image data width height true = .returned out ∧
        out.length = width * height ∧
        ∀ n, n < width * height →
          ∃ m0 m1 : Byte, data[2 * n]? = some m0 ∧ data[2 * n + 1]? = some m1 ∧
            out[n]? = some (256 * m0.val + m1.val) ∧
            out[n]? = some (swap2 host (wordOfBytes host m0.val m1.val)) ∧
            (host = Endian.little →
              256 * m0.val + m1.val =
                wordOfBytes host m0.val m1.val % 256 * 256 +
                  wordOfBytes host m0.val m1.val / 256) := by
  refine ⟨swap2_little v hv, ?_, ?_⟩
  · cases host
    · rw [swap2_little v hv, swap2_little _ (by omega)]
      omega
    · rw [swap2_big v hv, swap2_big v hv]
  · rw [Nat.mul_assoc] at hlen
    have hval : ∀ (n : Nat) (hn : n < width * height),
        decode16_val host data true n =
          .returned (256 * (data.get ⟨2 * n, by omega⟩).val +
            (data.get ⟨2 * n + 1, by omega⟩).val) := by
      intro n hn
      exact decode16_val_swap host data n _ _ (List.getElem?_eq_getElem _)
        (List.getElem?_eq_getElem _)
    have hr : decode16_hdr host image data width height true =
        .returned ((List.range (width * height)).map
          (fun n => (decode16_val host data true n).getD 0)) := by
      unfold decode16_hdr
      exact pixelLoops_returned_getD _ _ _ _ (length_resize _ _ _) (fun n hn => ⟨_, hval n hn⟩)
    refine ⟨_, hr, by simp, ?_⟩
    intro n hn
    have ho : ((List.range (width * height)).map
        (fun n => (decode16_val host data true n).getD 0))[n]? =
        some (256 * (data.get ⟨2 * n, by omega⟩).val +
          (data.get ⟨2 * n + 1, by omega⟩).val) := by
      rw [List.getElem?_map, List.getElem?_range hn]
      simp only [Option.map_some', hval n hn, Outcome.getD]
    refine ⟨data.get ⟨2 * n, by omega⟩, data.get ⟨2 * n + 1, by omega⟩,
      List.getElem?_eq_getElem _, List.getElem?_eq_getElem _, ho, ?_, ?_⟩
    · rw [ho, swap2_wordOfBytes host _ _ (Fin.isLt _) (Fin.isLt _)]
    · intro hh
      have := (data.get ⟨2 * n, by omega⟩).isLt
      have := (data.get ⟨2 * n + 1, by omega⟩).isLt
      rw [hh]
      simp only [wordOfBytes]
      omega

theorem swap2_decode16_witness :
    (0x1234 < 65536 ∧ 2 * 2 * 1 ≤ ([0x34, 0x12, 0xCD, 0xAB] : List Byte).length) ∧
    (swap2 Endian.little 0x1234 = 0x1234 % 256 * 256 + 0x1234 / 256 ∧
      swap2 Endian.little (swap2 Endian.little 0x1234) = 0x1234 ∧
      ∃ out, decode16_hdr Endian.little [] [0x34, 0x12, 0xCD, 0xAB] 2 1 true = .returned out ∧
        out.length = 2 * 1 ∧
        ∀ n, n < 2 * 1 →
          ∃ m0 m1 : Byte, ([0x34, 0x12, 0xCD, 0xAB] : List Byte)[2 * n]? = some m0 ∧
            ([0x34, 0x12, 0xCD, 0xAB] : List Byte)[2 * n + 1]? = some m1 ∧
            out[n]? = some (256 * m0.val + m1.val) ∧
            out[n]? = some (swap2 Endian.little (wordOfBytes Endian.little m0.val m1.val)) ∧
            (Endian.little = Endian.little →
              256 * m0.val + m1.val =
                wordOfBytes Endian.little m0.val m1.val % 256 * 256 +
                  wordOfBytes Endian.little m0.val m1.val / 256)) ∧
    swap2 Endian.little 0x1234 = 0x3412 ∧
    decode16_hdr Endian.little [] [0x34, 0x12, 0xCD, 0xAB] 2 1 true =
      .returned [0x3412, 0xCDAB] :=
  ⟨by decide,
    swap2_decode16 Endian.little [] [0x34, 0x12, 0xCD, 0xAB] 2 1 0x1234 (by decide) (by decide),
    by decide, by decide⟩

/-! ## The swap of the packed decoders is a word swap of the byte stream -/

theorem xor_one_even (i : Nat) (h : i % 2 = 0) : i ^^^ 1 = i + 1 := by
  have h1 : (i ^^^ 1) / 2 = i / 2 := by
    rw [Nat.xor_div_two]
    simp
  have h2 : (i ^^^ 1) % 2 = (i + 1) % 2 := Nat.xor_mod_two_eq
  omega

theorem xor_one_odd (i : Nat) (h : i % 2 = 1) : i ^^^ 1 = i - 1 := by
  have h1 : (i ^^^ 1) / 2 = i / 2 := by
    rw [Nat.xor_div_two]
    simp
  have h2 : (i ^^^ 1) % 2 = (i + 1) % 2 := Nat.xor_mod_two_eq
  omega

theorem length_wordSwap (data : List Byte) : (wordSwap data).length = data.length := by
  simp [wordSwap]

/-- In a buffer of even length, position `i` of the swapped buffer holds
what position `i xor 1` of the buffer holds, and is outside the swapped
buffer when `i xor 1` is outside the buffer. -/
theorem getElem?_wordSwap (data : List Byte) (heven : data.length % 2 = 0) (i : Nat) :
    (wordSwap data)[i]? = data[i ^^^ 1]? := by
  have hx : i ^^^ 1 = i + 1 ∧ i % 2 = 0 ∨ i ^^^ 1 = i - 1 ∧ i % 2 = 1 := by
    rcases Nat.mod_two_eq_zero_or_one i with h | h
    · exact Or.inl ⟨xor_one_even i h, h⟩
    · exact Or.inr ⟨xor_one_odd i h, h⟩
  unfold wordSwap
  by_cases hi : i < data.length
  · have hlt : i ^^^ 1 < data.length := by omega
    rw [List.getElem?_map, List.getElem?_range hi]
    simp [List.getD, List.getElem?_eq_getElem hlt]
  · have hge : data.length ≤ i ^^^ 1 := by omega
    rw [List.getElem?_eq_none (by simp only [List.length_map, List.length_range]; omega),
      List.getElem?_eq_none hge]

theorem load_wordSwap (data : List Byte) (heven : data.length % 2 = 0) (i : Nat) :
    load (wordSwap data) i = load data (i ^^^ 1) := by
  unfold load
  rw [getElem?_wordSwap data heven i]

/-- The loads of a 3-byte group with swap are the loads without swap from
the word-swapped buffer, in the same order. -/
theorem loadBuf12_swap (data : List Byte) (heven : data.length % 2 = 0) (addr3 : Nat) :
    loadBuf12 data addr3 true = loadBuf12 (wordSwap data) addr3 false := by
  unfold loadBuf12
  simp only [if_true, Bool.false_eq_true, if_false, load_wordSwap data heven]
  rcases Nat.mod_two_eq_zero_or_one addr3 with h | h
  · rw [if_neg (by omega), xor_one_even (addr3 + 0) (by omega),
      xor_one_odd (addr3 + 1) (by omega), xor_one_even (addr3 + 2) (by omega)]
    rfl
  · rw [if_pos (by omega), xor_one_odd (addr3 + 0) (by omega),
      xor_one_even (addr3 + 1) (by omega), xor_one_odd (addr3 + 2) (by omega)]
    rfl

/-- The loads of a 7-byte group with swap are the loads without swap from
the word-swapped buffer, in the same order. -/
theorem loadBuf14_swap (data : List Byte) (heven : data.length % 2 = 0) (addr7 : Nat) :
    loadBuf14 data addr7 true = loadBuf14 (wordSwap data) addr7 false := by
  unfold loadBuf14
  simp only [if_true, Bool.false_eq_true, if_false, load_wordSwap data heven]
  rcases Nat.mod_two_eq_zero_or_one addr7 with h | h
  · rw [if_neg (by omega), xor_one_even (addr7 + 0) (by omega),
      xor_one_odd (addr7 + 1) (by omega), xor_one_even (addr7 + 2) (by omega),
      xor_one_odd (addr7 + 3) (by omega), xor_one_even (addr7 + 4) (by omega),
      xor_one_odd (addr7 + 5) (by omega), xor_one_even (addr7 + 6) (by omega)]
    rfl
  · rw [if_pos (by omega), xor_one_odd (addr7 + 0) (by omega),
      xor_one_even (addr7 + 1) (by omega), xor_one_odd (addr7 + 2) (by omega),
      xor_one_even (addr7 + 3) (by omega), xor_one_odd (addr7 + 4) (by omega),
      xor_one_even (addr7 + 5) (by omega), xor_one_odd (addr7 + 6) (by omega)]
    rfl

/-- C15: the swap of the packed decoders is a 16-bit word swap of the byte
stream.  For a buffer `data` of even length and `wordSwap data` the buffer
with `data'[i] = data[i xor 1]`, for every width, height and initial image:
`decode12_hdr` and `decode14_hdr` with swap on `data` have the outcome of
the call without swap on `wordSwap data`; group by group, for a start offset
of either parity, the loads with swap are the loads without swap from
`wordSwap data`; and `i xor 1` is `i + 1` for even `i` and `i - 1 ≥ 0` for
odd `i`, so the loads at `addr - 1` of the odd branches are at an index that
exists. -/
theorem swap_is_wordSwap (image : List Nat) (data : List Byte) (width height : Nat)
    (heven : data.length % 2 = 0) :
    decode12_hdr image data width height true =
        decode12_hdr image (wordSwap data) width height false ∧
      decode14_hdr image data width height true =
        decode14_hdr image (wordSwap data) width height false ∧
      (∀ addr3, loadBuf12 data addr3 true = loadBuf12 (wordSwap data) addr3 false) ∧
      (∀ addr7, loadBuf14 data addr7 true = loadBuf14 (wordSwap data) addr7 false) ∧
      (∀ i, load (wordSwap data) i = load data (i ^^^ 1)) ∧
      (∀ i, i % 2 = 0 → i ^^^ 1 = i + 1) ∧
      (∀ i, i % 2 = 1 → i ^^^ 1 = i - 1 ∧ 1 ≤ i) := by
  refine ⟨?_, ?_, loadBuf12_swap data heven, loadBuf14_swap data heven,
    load_wordSwap data heven, xor_one_even, fun i hi => ⟨xor_one_odd i hi, by omega⟩⟩
  · have hv : decode12_val data true = decode12_val (wordSwap data) false := by
      funext n
      unfold decode12_val
      simp only [loadBuf12_swap data heven]
    unfold decode12_hdr
    rw [hv]
  · have hv : decode14_val data true = decode14_val (wordSwap data) false := by
      funext n
      unfold decode14_val
      simp only [loadBuf14_swap data heven]
    unfold decode14_hdr
    rw [hv]

theorem swap_is_wordSwap_witness :
    (([0x34, 0x12, 0x78, 0x56, 0xBC, 0x9A, 0xF0, 0xDE] : List Byte).length % 2 = 0) ∧
    (decode12_hdr [] [0x34, 0x12, 0x78, 0x56, 0xBC, 0x9A, 0xF0, 0xDE] 4 1 true =
        decode12_hdr [] (wordSwap [0x34, 0x12, 0x78, 0x56, 0xBC, 0x9A, 0xF0, 0xDE]) 4 1 false ∧
      decode14_hdr [] [0x34, 0x12, 0x78, 0x56, 0xBC, 0x9A, 0xF0, 0xDE] 4 1 true =
        decode14_hdr [] (wordSwap [0x34, 0x12, 0x78, 0x56, 0xBC, 0x9A, 0xF0, 0xDE]) 4 1 false ∧
      (∀ addr3, loadBuf12 [0x34, 0x12, 0x78, 0x56, 0xBC, 0x9A, 0xF0, 0xDE] addr3 true =
        loadBuf12 (wordSwap [0x34, 0x12, 0x78, 0x56, 0xBC, 0x9A, 0xF0, 0xDE]) addr3 false) ∧
      (∀ addr7, loadBuf14 [0x34, 0x12, 0x78, 0x56, 0xBC, 0x9A, 0xF0, 0xDE] addr7 true =
        loadBuf14 (wordSwap [0x34, 0x12, 0x78, 0x56, 0xBC, 0x9A, 0xF0, 0xDE]) addr7 false) ∧
      (∀ i, load (wordSwap [0x34, 0x12, 0x78, 0x56, 0xBC, 0x9A, 0xF0, 0xDE]) i =
        load [0x34, 0x12, 0x78, 0x56, 0xBC, 0x9A, 0xF0, 0xDE] (i ^^^ 1)) ∧
      (∀ i, i % 2 = 0 → i ^^^ 1 = i + 1) ∧
      (∀ i, i % 2 = 1 → i ^^^ 1 = i - 1 ∧ 1 ≤ i)) ∧
    wordSwap [0x34, 0x12, 0x78, 0x56, 0xBC, 0x9A, 0xF0, 0xDE] =
      [0x12, 0x34, 0x56, 0x78, 0x9A, 0xBC, 0xDE, 0xF0] ∧
    decode12_hdr [] [0x34, 0x12, 0x78, 0x56, 0xBC, 0x9A, 0xF0, 0xDE] 4 1 true =
      .returned [0x123, 0x456, 0x789, 0xABC] ∧
    decode14_hdr [] [0x34, 0x12, 0x78, 0x56, 0xBC, 0x9A, 0xF0, 0xDE] 4 1 true =
      decode14_hdr [] [0x12, 0x34, 0x56, 0x78, 0x9A, 0xBC, 0xDE, 0xF0] 4 1 false :=
  ⟨by decide,
    swap_is_wordSwap [] [0x34, 0x12, 0x78, 0x56, 0xBC, 0x9A, 0xF0, 0xDE] 4 1 (by decide),
    by decide, by decide, by decide⟩

/-! ## The packed layouts as bit fields of the byte stream -/

theorem bitField_split (data : List Byte) (s l1 : Nat) :
    ∀ l2, bitField data s (l1 + l2) =
      bitField data s l1 * 2 ^ l2 + bitField data (s + l1) l2 := by
  intro l2
  induction l2 with
  | zero => simp [bitField]
  | succ l ih =>
    show 2 * bitField data s (l1 + l) + streamBit data (s + (l1 + l)) =
      bitField data s l1 * 2 ^ (l + 1) +
        (2 * bitField data (s + l1) l + streamBit data (s + l1 + l))
    rw [ih, Nat.add_assoc s l1 l]
    ring

/-- A run of bits inside one byte. -/
theorem bitField_byte (data : List Byte) (i : Nat) :
    ∀ len j, j + len ≤ 8 →
      bitField data (8 * i + j) len = (data.getD i 0).val / 2 ^ (8 - j - len) % 2 ^ len := by
  intro len
  induction len with
  | zero => intro j _; simp [bitField, Nat.mod_one]
  | succ l ih =>
    intro j hj
    show 2 * bitField data (8 * i + j) l + streamBit data (8 * i + j + l) = _
    rw [ih j (by omega)]
    unfold streamBit
    have h1 : (8 * i + j + l) / 8 = i := by omega
    have h2 : (8 * i + j + l) % 8 = j + l := by omega
    have h3 : 8 - j - l = (8 - j - (l + 1)) + 1 := by omega
    have h4 : 7 - (j + l) = 8 - j - (l + 1) := by omega
    rw [h1, h2, h3, h4]
    generalize 8 - j - (l + 1) = e
    generalize (data.getD i 0).val = b
    rw [Nat.pow_succ, ← Nat.div_div_eq_div_mul, Nat.pow_succ, Nat.mul_comm (2 ^ l) 2,
      Nat.mod_mul]
    omega

theorem getD_of_getElem? (data : List Byte) (i : Nat) (a : Byte) (h : data[i]? = some a) :
    data.getD i 0 = a := by
  simp [List.getD, h]

/-- The 12 bits `[12 n, 12 n + 12)` of the stream, by parity of `n`. -/
theorem bitField12 (data : List Byte) (n : Nat) (a b c : Byte)
    (h0 : data[n / 2 * 3]? = some a) (h1 : data[n / 2 * 3 + 1]? = some b)
    (h2 : data[n / 2 * 3 + 2]? = some c) :
    bitField data (12 * n) 12 =
      if n % 2 = 0 then a.val * 16 + b.val / 16 else b.val % 16 * 256 + c.val := by
  have := a.isLt
  have := b.isLt
  have := c.isLt
  have g0 := getD_of_getElem? data _ a h0
  have g1 := getD_of_getElem? data _ b h1
  have g2 := getD_of_getElem? data _ c h2
  rcases Nat.mod_two_eq_zero_or_one n with hn | hn
  · rw [if_pos hn, show 12 * n = 8 * (n / 2 * 3) + 0 by omega,
      bitField_split data _ 8 4, bitField_byte data _ 8 0 (by omega),
      show 8 * (n / 2 * 3) + 0 + 8 = 8 * (n / 2 * 3 + 1) + 0 by omega,
      bitField_byte data _ 4 0 (by omega), g0, g1]
    omega
  · rw [if_neg (by omega), show 12 * n = 8 * (n / 2 * 3 + 1) + 4 by omega,
      bitField_split data _ 4 8, bitField_byte data _ 4 4 (by omega),
      show 8 * (n / 2 * 3 + 1) + 4 + 4 = 8 * (n / 2 * 3 + 2) + 0 by omega,
      bitField_byte data _ 8 0 (by omega), g1, g2]
    omega

/-- The 14 bits `[14 n, 14 n + 14)` of the stream, by `n % 4`. -/
theorem bitField14 (data : List Byte) (n : Nat) (c0 c1 c2 c3 c4 c5 c6 : Byte)
    (h0 : data[n / 4 * 7 + 0]? = some c0) (h1 : data[n / 4 * 7 + 1]? = some c1)
    (h2 : data[n / 4 * 7 + 2]? = some c2) (h3 : data[n / 4 * 7 + 3]? = some c3)
    (h4 : data[n / 4 * 7 + 4]? = some c4) (h5 : data[n / 4 * 7 + 5]? = some c5)
    (h6 : data[n / 4 * 7 + 6]? = some c6) :
    bitField data (14 * n) 14 =
      if n % 4 = 0 then c0.val * 64 + c1.val / 4
      else if n % 4 = 1 then c1.val % 4 * 4096 + c2.val * 16 + c3.val / 16
      else if n % 4 = 2 then c3.val % 16 * 1024 + c4.val * 4 + c5.val / 64
      else c5.val % 64 * 256 + c6.val := by
  have := c0.isLt
  have := c1.isLt
  have := c2.isLt
  have := c3.isLt
  have := c4.isLt
  have := c5.isLt
  have := c6.isLt
  have g0 := getD_of_getElem? data _ c0 h0
  have g1 := getD_of_getElem? data _ c1 h1
  have g2 := getD_of_getElem? data _ c2 h2
  have g3 := getD_of_getElem? data _ c3 h3
  have g4 := getD_of_getElem? data _ c4 h4
  have g5 := getD_of_getElem? data _ c5 h5
  have g6 := getD_of_getElem? data _ c6 h6
  have hn4 : n % 4 = 0 ∨ n % 4 = 1 ∨ n % 4 = 2 ∨ n % 4 = 3 := by omega
  rcases hn4 with hn | hn | hn | hn
  · rw [if_pos hn, show 14 * n = 8 * (n / 4 * 7 + 0) + 0 by omega,
      bitField_split data _ 8 6, bitField_byte data _ 8 0 (by omega),
      show 8 * (n / 4 * 7 + 0) + 0 + 8 = 8 * (n / 4 * 7 + 1) + 0 by omega,
      bitField_byte data _ 6 0 (by omega), g0, g1]
    omega
  · rw [if_neg (by omega), if_pos hn, show 14 * n = 8 * (n / 4 * 7 + 1) + 6 by omega,
      show 14 = 2 + 8 + 4 by rfl, bitField_split data _ (2 + 8) 4, bitField_split data _ 2 8,
      bitField_byte data _ 2 6 (by omega),
      show 8 * (n / 4 * 7 + 1) + 6 + 2 = 8 * (n / 4 * 7 + 2) + 0 by omega,
      bitField_byte data _ 8 0 (by omega),
      show 8 * (n / 4 * 7 + 1) + 6 + (2 + 8) = 8 * (n / 4 * 7 + 3) + 0 by omega,
      bitField_byte data _ 4 0 (by omega), g1, g2, g3]
    omega
  · rw [if_neg (by omega), if_neg (by omega), if_pos hn,
      show 14 * n = 8 * (n / 4 * 7 + 3) + 4 by omega,
      show 14 = 4 + 8 + 2 by rfl, bitField_split data _ (4 + 8) 2, bitField_split data _ 4 8,
      bitField_byte data _ 4 4 (by omega),
      show 8 * (n / 4 * 7 + 3) + 4 + 4 = 8 * (n / 4 * 7 + 4) + 0 by omega,
      bitField_byte data _ 8 0 (by omega),
      show 8 * (n / 4 * 7 + 3) + 4 + (4 + 8) = 8 * (n / 4 * 7 + 5) + 0 by omega,
      bitField_byte data _ 2 0 (by omega), g3, g4, g5]
    omega
  · rw [if_neg (by omega), if_neg (by omega), if_neg (by omega),
      show 14 * n = 8 * (n / 4 * 7 + 5) + 2 by omega,
      show 14 = 6 + 8 by rfl, bitField_split data _ 6 8,
      bitField_byte data _ 6 2 (by omega),
      show 8 * (n / 4 * 7 + 5) + 2 + 6 = 8 * (n / 4 * 7 + 6) + 0 by omega,
      bitField_byte data _ 8 0 (by omega), g5, g6]
    omega

/-- C20, as the code falsifies it: the 14 bits of sample 0 lie inside a
buffer of two bytes and form `0x2AF3`, yet `decode14_hdr` copies the seven
bytes of the group and so loads outside the buffer. -/
theorem twoBytes_sample_not_decoded :
    (14 * 0 + 14 ≤ 8 * twoBytes.length) ∧
    bitField twoBytes (14 * 0) 14 = 0x2AF3 ∧
    decode14_val twoBytes false 0 = .outOfBounds ∧
    decode14_hdr [] twoBytes 1 1 false = .outOfBounds := by
  decide

/-- C20, amended: the packed decoders extract contiguous bit fields.
Without swap, for every sample index `n` whose group (3 bytes at 12 bits,
7 bytes at 14 bits) lies inside the buffer, the value that `decode12_hdr`
computes for `n` is the integer formed by the bits `[12 n, 12 n + 12)` of
the most-significant-bit-first bit string of the buffer, and that of
`decode14_hdr` is the integer formed by the bits `[14 n, 14 n + 14)`; when
this holds for every `n < width * height` the decoders return images with
these entries.  Consecutive ranges are adjacent. -/
theorem decoders_bitstream (image : List Nat) (data : List Byte) (width height : Nat) :
    (∀ n, n / 2 * 3 + 2 < data.length →
      decode12_val data false n = .returned (bitField data (12 * n) 12)) ∧
    (∀ n, n / 4 * 7 + 6 < data.length →
      decode14_val data false n = .returned (bitField data (14 * n) 14)) ∧
    ((∀ n, n < width * height → n / 2 * 3 + 2 < data.length) →
      ∃ out, decode12_hdr image data width height false = .returned out ∧
        out.length = width * height ∧
        ∀ n, n < width * height → out[n]? = some (bitField data (12 * n) 12)) ∧
    ((∀ n, n < width * height → n / 4 * 7 + 6 < data.length) →
      ∃ out, decode14_hdr image data width height false = .returned out ∧
        out.length = width * height ∧
        ∀ n, n < width * height → out[n]? = some (bitField data (14 * n) 14)) ∧
    (∀ n, 12 * n + 12 = 12 * (n + 1) ∧ 14 * n + 14 = 14 * (n + 1)) := by
  have v12 : ∀ n, n / 2 * 3 + 2 < data.length →
      decode12_val data false n = .returned (bitField data (12 * n) 12) := by
    intro n hn
    have e0 : data[n / 2 * 3]? = some (data.get ⟨n / 2 * 3, by omega⟩) :=
      List.getElem?_eq_getElem _
    have e1 : data[n / 2 * 3 + 1]? = some (data.get ⟨n / 2 * 3 + 1, by omega⟩) :=
      List.getElem?_eq_getElem _
    have e2 : data[n / 2 * 3 + 2]? = some (data.get ⟨n / 2 * 3 + 2, hn⟩) :=
      List.getElem?_eq_getElem _
    rw [decode12_val_noswap data n _ _ _ e0 e1 e2, bitField12 data n _ _ _ e0 e1 e2]
  have v14 : ∀ n, n / 4 * 7 + 6 < data.length →
      decode14_val data false n = .returned (bitField data (14 * n) 14) := by
    intro n hn
    have e0 : data[n / 4 * 7 + 0]? = some (data.get ⟨n / 4 * 7 + 0, by omega⟩) :=
      List.getElem?_eq_getElem _
    have e1 : data[n / 4 * 7 + 1]? = some (data.get ⟨n / 4 * 7 + 1, by omega⟩) :=
      List.getElem?_eq_getElem _
    have e2 : data[n / 4 * 7 + 2]? = some (data.get ⟨n / 4 * 7 + 2, by omega⟩) :=
      List.getElem?_eq_getElem _
    have e3 : data[n / 4 * 7 + 3]? = some (data.get ⟨n / 4 * 7 + 3, by omega⟩) :=
      List.getElem?_eq_getElem _
    have e4 : data[n / 4 * 7 + 4]? = some (data.get ⟨n / 4 * 7 + 4, by omega⟩) :=
      List.getElem?_eq_getElem _
    have e5 : data[n / 4 * 7 + 5]? = some (data.get ⟨n / 4 * 7 + 5, by omega⟩) :=
      List.getElem?_eq_getElem _
    have e6 : data[n / 4 * 7 + 6]? = some (data.get ⟨n / 4 * 7 + 6, hn⟩) :=
      List.getElem?_eq_getElem _
    rw [decode14_val_noswap data n _ _ _ _ _ _ _ e0 e1 e2 e3 e4 e5 e6,
      bitField14 data n _ _ _ _ _ _ _ e0 e1 e2 e3 e4 e5 e6]
  refine ⟨v12, v14, ?_, ?_, fun n => ⟨by omega, by omega⟩⟩
  · intro hcov
    have hr : decode12_hdr image data width height false =
        .returned ((List.range (width * height)).map (fun n => bitField data (12 * n) 12)) := by
      unfold decode12_hdr
      exact pixelLoops_returned _ _ _ _ _ (length_resize _ _ _) (fun n hn => v12 n (hcov n hn))
    refine ⟨_, hr, by simp, ?_⟩
    intro n hn
    rw [List.getElem?_map, List.getElem?_range hn]
    rfl
  · intro hcov
    have hr : decode14_hdr image data width height false =
        .returned ((List.range (width * height)).map (fun n => bitField data (14 * n) 14)) := by
      unfold decode14_hdr
      exact pixelLoops_returned _ _ _ _ _ (length_resize _ _ _) (fun n hn => v14 n (hcov n hn))
    refine ⟨_, hr, by simp, ?_⟩
    intro n hn
    rw [List.getElem?_map, List.getElem?_range hn]
    rfl

theorem decoders_bitstream_witness :
    (1 / 2 * 3 + 2 < tenBytes.length ∧ 3 / 4 * 7 + 6 < tenBytes.length ∧
      (∀ n, n < 2 * 1 → n / 2 * 3 + 2 < tenBytes.length) ∧
      (∀ n, n < 4 * 1 → n / 4 * 7 + 6 < tenBytes.length)) ∧
    decode12_val tenBytes false 1 = .returned (bitField tenBytes (12 * 1) 12) ∧
    decode14_val tenBytes false 3 = .returned (bitField tenBytes (14 * 3) 14) ∧
    (∃ out, decode12_hdr [] tenBytes 2 1 false = .returned out ∧
      out.length = 2 * 1 ∧
      ∀ n, n < 2 * 1 → out[n]? = some (bitField tenBytes (12 * n) 12)) ∧
    (∃ out, decode14_hdr [] tenBytes 4 1 false = .returned out ∧
      out.length = 4 * 1 ∧
      ∀ n, n < 4 * 1 → out[n]? = some (bitField tenBytes (14 * n) 14)) ∧
    bitField tenBytes (12 * 1) 12 = 0x456 ∧
    decode14_hdr [] tenBytes 4 1 false =
      .returned [bitField tenBytes 0 14, bitField tenBytes 14 14, bitField tenBytes 28 14,
        bitField tenBytes 42 14] :=
  ⟨by decide,
    (decoders_bitstream [] tenBytes 2 1).1 1 (by decide),
    (decoders_bitstream [] tenBytes 4 1).2.1 3 (by decide),
    (decoders_bitstream [] tenBytes 2 1).2.2.1 (by decide),
    (decoders_bitstream [] tenBytes 4 1).2.2.2.1 (by decide),
    by decide, by decide⟩

/-! ## Position-only addressing -/

theorem rowLoop_benign (val : Nat → Outcome Nat) (hben : ∀ n, (val n).benign)
    (w y : Nat) (image : List Nat) : (rowLoop val w y image).benign :=
  forLoop_benign _ (fun _ _ => Outcome.benign_bind (hben _) (fun _ => store_benign _ _ _)) _ _ _

/-- One row, when its values are computed without fault: the entries of the
row are written, the others are left alone. -/
theorem rowLoop_spec (val : Nat → Outcome Nat) (g : Nat → Nat) (w y L : Nat)
    (image : List Nat) (hl : image.length = L)
    (hval : ∀ x, x < w → y * w + x < L ∧ val (y * w + x) = .returned (g (y * w + x))) :
    ∃ out, rowLoop val w y image = .returned out ∧ out.length = L ∧
      (∀ j, (∃ x, x < w ∧ j = y * w + x) → out[j]? = some (g j)) ∧
      (∀ j, (¬ ∃ x, x < w ∧ j = y * w + x) → out[j]? = image[j]?) := by
  obtain ⟨out, ho, hlo, hA, hB⟩ :=
    forLoop_scatter
      (fun x img => (val (y * w + x)).bind (fun v => store img (y * w + x) v))
      (fun x j => j = y * w + x) g L w 0
      (by
        intro x _ hx t ht
        obtain ⟨hn, hv⟩ := hval x (by omega)
        refine ⟨t.set (y * w + x) (g (y * w + x)), ?_, ?_, ?_, ?_⟩
        · simp only [hv, Outcome.bind]
          exact store_of_lt _ _ _ (by omega)
        · simp [ht]
        · intro j hj
          subst hj
          simp [List.getElem?_set, ht, hn]
        · intro j hj
          simp only [List.getElem?_set]
          rw [if_neg (fun h => hj h.symm)])
      image hl
  refine ⟨out, ho, hlo, ?_, ?_⟩
  · rintro j ⟨x, hx, hj⟩
    exact hA j ⟨x, Nat.zero_le _, by omega, hj⟩
  · intro j hj
    apply hB j
    rintro ⟨x, _, hx, hjx⟩
    exact hj ⟨x, by omega, hjx⟩

/-- Rows run in the order of a list, when their values are computed without
fault: the entries of the listed rows are written, the others are left
alone. -/
theorem decodeRows_spec (val : Nat → Outcome Nat) (g : Nat → Nat) (w L : Nat) :
    ∀ (rows : List Nat) (image : List Nat), image.length = L →
      (∀ y, y ∈ rows → ∀ x, x < w →
        y * w + x < L ∧ val (y * w + x) = .returned (g (y * w + x))) →
      ∃ out, decodeRows val w rows image = .returned out ∧ out.length = L ∧
        (∀ j, (∃ y, y ∈ rows ∧ ∃ x, x < w ∧ j = y * w + x) → out[j]? = some (g j)) ∧
        (∀ j, (¬ ∃ y, y ∈ rows ∧ ∃ x, x < w ∧ j = y * w + x) → out[j]? = image[j]?) := by
  intro rows
  induction rows with
  | nil =>
    intro image hl _
    refine ⟨image, rfl, hl, ?_, fun _ _ => rfl⟩
    rintro j ⟨y, hy, _⟩
    cases hy
  | cons y rest ih =>
    intro image hl hval
    obtain ⟨s1, h1, hl1, hA1, hB1⟩ :=
      rowLoop_spec val g w y L image hl (hval y (List.mem_cons_self _ _))
    obtain ⟨out, ho, hlo, hA, hB⟩ :=
      ih s1 hl1 (fun y1 hy1 => hval y1 (List.mem_cons_of_mem _ hy1))
    refine ⟨out, ?_, hlo, ?_, ?_⟩
    · simp only [decodeRows, h1, Outcome.bind]
      exact ho
    · rintro j ⟨y1, hy1, hx1⟩
      by_cases hex : ∃ y2, y2 ∈ rest ∧ ∃ x, x < w ∧ j = y2 * w + x
      · exact hA j hex
      · rw [hB j hex]
        rcases List.mem_cons.mp hy1 with he | hin
        · exact hA1 j (he ▸ hx1)
        · exact absurd ⟨y1, hin, hx1⟩ hex
    · intro j hne
      have h2 : ¬ ∃ y2, y2 ∈ rest ∧ ∃ x, x < w ∧ j = y2 * w + x := by
        rintro ⟨y2, hy2, hx2⟩
        exact hne ⟨y2, List.mem_cons_of_mem _ hy2, hx2⟩
      have h3 : ¬ ∃ x, x < w ∧ j = y * w + x :=
        fun h => hne ⟨y, List.mem_cons_self _ _, h⟩
      rw [hB j h2, hB1 j h3]

/-- Rows run in the order of a list: an out-of-bounds load in one of the
listed rows ends the run, whatever the order. -/
theorem decodeRows_outOfBounds (val : Nat → Outcome Nat) (hben : ∀ n, (val n).benign)
    (w : Nat) :
    ∀ (rows : List Nat) (image : List Nat),
      (∃ y, y ∈ rows ∧ ∃ x, x < w ∧ val (y * w + x) = .outOfBounds) →
      decodeRows val w rows image = .outOfBounds := by
  intro rows
  induction rows with
  | nil =>
    rintro image ⟨y, hy, _⟩
    cases hy
  | cons y rest ih =>
    rintro image ⟨y1, hy1, x, hx, hv⟩
    rcases List.mem_cons.mp hy1 with he | hin
    · subst he
      have hrow : rowLoop val w y1 image = .outOfBounds := by
        unfold rowLoop
        apply forLoop_outOfBounds _
          (fun _ _ => Outcome.benign_bind (hben _) (fun _ => store_benign _ _ _))
        refine ⟨x, Nat.zero_le _, by omega, fun t => ?_⟩
        simp only [hv, Outcome.bind]
      simp only [decodeRows, hrow, Outcome.bind]
    · rcases Outcome.benign_cases (rowLoop_benign val hben w y image) with ⟨s1, hs1⟩ | ho
      · simp only [decodeRows, hs1, Outcome.bind]
        exact ih s1 ⟨y1, hin, x, hx, hv⟩
      · simp only [decodeRows, ho, Outcome.bind]

theorem row_of_index {w h j : Nat} (hj : j < w * h) :
    j / w < h ∧ j % w < w ∧ j = j / w * w + j % w := by
  obtain ⟨y, _, hy, x, _, hx, hjx⟩ := @lin_exists w h j hj
  have hw : 0 < w := by omega
  have hd : j / w = y := by
    rw [hjx, Nat.add_comm, Nat.add_mul_div_right _ _ hw, Nat.div_eq_of_lt (by omega)]
    omega
  have hm : j % w = x := by
    rw [hjx, Nat.add_comm, Nat.add_mul_mod_self_right, Nat.mod_eq_of_lt (by omega)]
  rw [hd, hm]
  exact ⟨by omega, by omega, hjx⟩

theorem index_in_rows {w y0 k y x j : Nat} (hy0 : y0 ≤ y) (hy : y < y0 + k) (hx : x < w)
    (hj : j = y * w + x) : y0 * w ≤ j ∧ j < (y0 + k) * w := by
  have h1 : y0 * w ≤ y * w := Nat.mul_le_mul_right w hy0
  have h2 : (y + 1) * w ≤ (y0 + k) * w := Nat.mul_le_mul_right w hy
  have h3 : (y + 1) * w = y * w + w := Nat.succ_mul y w
  omega

theorem rows_of_index {w y0 k j : Nat} (h1 : y0 * w ≤ j) (h2 : j < (y0 + k) * w) :
    y0 ≤ j / w ∧ j / w < y0 + k ∧ j % w < w ∧ j = j / w * w + j % w := by
  have hw : 0 < w := by
    rcases Nat.eq_zero_or_pos w with h0 | h0
    · rw [h0, Nat.mul_zero] at h2; omega
    · exact h0
  have h3 := Nat.div_add_mod j w
  rw [Nat.mul_comm] at h3
  refine ⟨(Nat.le_div_iff_mul_le hw).mpr h1, (Nat.div_lt_iff_lt_mul hw).mpr h2,
    Nat.mod_lt j hw, h3.symm⟩

/-- The loops of a decoder address by position only. -/
theorem pixelLoops_positionOnly (val : Nat → Outcome Nat) (hben : ∀ n, (val n).benign) :
    PositionOnly val (fun image w h => pixelLoops val w h (resize image (w * h) 0)) := by
  refine ⟨?_, ?_, ?_, ?_⟩
  · intro image image1 w h w1 h1 hshape
    exact pixelLoops_congr val hben w h w1 h1 _ _ hshape (length_resize _ _ _)
      (length_resize _ _ _)
  · intro image w h rows hperm
    show decodeRows val w rows (resize image (w * h) 0) =
      pixelLoops val w h (resize image (w * h) 0)
    by_cases hall : ∀ n, n < w * h → ∃ v, val n = .returned v
    · rw [pixelLoops_returned_getD val w h _ (length_resize _ _ _) hall]
      obtain ⟨out, ho, hlo, hA, _⟩ :=
        decodeRows_spec val (fun n => (val n).getD 0) w (w * h) rows
          (resize image (w * h) 0) (length_resize _ _ _)
          (by
            intro y hy x hx
            have hyh : y < h := List.mem_range.mp (hperm.mem_iff.mp hy)
            have hn : y * w + x < w * h := lin_lt hyh hx
            obtain ⟨v, hv⟩ := hall _ hn
            refine ⟨hn, ?_⟩
            show val (y * w + x) = Outcome.returned ((val (y * w + x)).getD 0)
            rw [hv]
            rfl)
      rw [ho]
      congr 1
      apply List.ext_getElem?
      intro j
      by_cases hj : j < w * h
      · obtain ⟨h1, h2, h3⟩ := row_of_index hj
        rw [hA j ⟨j / w, hperm.mem_iff.mpr (List.mem_range.mpr h1), j % w, h2, h3⟩,
          List.getElem?_map, List.getElem?_range hj]
        rfl
      · rw [List.getElem?_eq_none (by omega), List.getElem?_eq_none (by simp; omega)]
    · have hbad : ∃ n, n < w * h ∧ val n = .outOfBounds := by
        by_contra hno
        apply hall
        intro n hn
        rcases Outcome.benign_cases (hben n) with hr | ho
        · exact hr
        · exact absurd ⟨n, hn, ho⟩ hno
      rw [pixelLoops_outOfBounds val w h _ hben hbad]
      obtain ⟨n, hn, hv⟩ := hbad
      obtain ⟨h1, h2, h3⟩ := row_of_index hn
      exact decodeRows_outOfBounds val hben w rows _
        ⟨n / w, hperm.mem_iff.mpr (List.mem_range.mpr h1), n % w, h2, h3 ▸ hv⟩
  · intro image w h full hfull y0 k buf hk hbuf
    have hfull1 : pixelLoops val w h (resize image (w * h) 0) = .returned full := hfull
    have hall := pixelLoops_returned_inv val w h (resize image (w * h) 0) full hfull1
    have he := pixelLoops_returned_getD val w h (resize image (w * h) 0) (length_resize _ _ _) hall
    rw [hfull1] at he
    injection he with he
    obtain ⟨out, ho, hlo, hA, hB⟩ :=
      decodeRows_spec val (fun n => (val n).getD 0) w (w * h) (List.range' y0 k) buf hbuf
        (by
          intro y hy x hx
          have hy1 := List.mem_range'_1.mp hy
          have hn : y * w + x < w * h := lin_lt (by omega) hx
          obtain ⟨v, hv⟩ := hall _ hn
          refine ⟨hn, ?_⟩
          show val (y * w + x) = Outcome.returned ((val (y * w + x)).getD 0)
          rw [hv]
          rfl)
    refine ⟨out, ho, hlo, ?_, ?_⟩
    · intro j hj1 hj2
      obtain ⟨r1, r2, r3, r4⟩ := rows_of_index hj1 hj2
      have hjn : j < w * h := by
        have := @lin_lt w h (j / w) (j % w) (by omega) r3
        omega
      rw [hA j ⟨j / w, List.mem_range'_1.mpr ⟨r1, r2⟩, j % w, r3, r4⟩, he,
        List.getElem?_map, List.getElem?_range hjn]
      rfl
    · intro j hj
      apply hB j
      rintro ⟨y, hy, x, hx, hjx⟩
      have hy1 := List.mem_range'_1.mp hy
      exact hj (index_in_rows hy1.1 hy1.2 hx hjx)
  · intro image w h full hfull
    have hfull1 : pixelLoops val w h (resize image (w * h) 0) = .returned full := hfull
    have hall := pixelLoops_returned_inv val w h (resize image (w * h) 0) full hfull1
    have he := pixelLoops_returned_getD val w h (resize image (w * h) 0) (length_resize _ _ _) hall
    rw [hfull1] at he
    injection he with he
    refine ⟨by rw [he]; simp, ?_⟩
    intro x y hx hy
    have hn : y * w + x < w * h := lin_lt hy hx
    obtain ⟨v, hv⟩ := hall _ hn
    refine ⟨v, hv, ?_⟩
    rw [he, List.getElem?_map, List.getElem?_range hn]
    show some ((val (y * w + x)).getD 0) = some v
    rw [hv]
    rfl

/-- C17: position-only addressing.  For each of `decode12_hdr`,
`decode14_hdr`, `decode16_hdr`, every buffer and every swap flag: the value
written at `(x, y)` is the value the loop body computes from the buffer and
the linear index `y * width + x`; two shapes with the same number of samples
give the same outcome (the same decoded sequence), whatever the image vector
held before; the rows run in any order give the outcome of the sequential
decode; and a range of rows run on its own writes exactly its rows of the
sequential decode and nothing else, so the rows of separate runs put
together are the image of the full decode. -/
theorem decoders_position_only (host : Endian) (data : List Byte) (do_swap : Bool) :
    PositionOnly (decode12_val data do_swap)
        (fun image w h => decode12_hdr image data w h do_swap) ∧
      PositionOnly (decode14_val data do_swap)
        (fun image w h => decode14_hdr image data w h do_swap) ∧
      PositionOnly (decode16_val host data do_swap)
        (fun image w h => decode16_hdr host image data w h do_swap) :=
  ⟨pixelLoops_positionOnly _ (decode12_val_benign data do_swap),
    pixelLoops_positionOnly _ (decode14_val_benign data do_swap),
    pixelLoops_positionOnly _ (decode16_val_benign host data do_swap)⟩

theorem decoders_position_only_witness :
    (([1, 0] : List Nat).Perm (List.range 2) ∧ 2 * 2 = 4 * 1 ∧ 1 + 1 ≤ 2 ∧
      ([7, 7, 7, 7] : List Nat).length = 2 * 2 ∧
      decode12_hdr [] sixBytes 2 2 true = .returned [0x341, 0x278, 0x56B, 0xC9A]) ∧
    decodeRows (decode12_val sixBytes true) 2 [1, 0] (resize [] (2 * 2) 0) =
      decode12_hdr [] sixBytes 2 2 true ∧
    decode12_hdr [] sixBytes 2 2 true = decode12_hdr [9] sixBytes 4 1 true ∧
    (∃ out, decodeRows (decode12_val sixBytes true) 2 (List.range' 1 1) [7, 7, 7, 7] =
        .returned out ∧
      out.length = 2 * 2 ∧
      (∀ j, 1 * 2 ≤ j → j < (1 + 1) * 2 →
        out[j]? = ([0x341, 0x278, 0x56B, 0xC9A] : List Nat)[j]?) ∧
      (∀ j, ¬ (1 * 2 ≤ j ∧ j < (1 + 1) * 2) → out[j]? = ([7, 7, 7, 7] : List Nat)[j]?)) ∧
    decodeRows (decode12_val sixBytes true) 2 (List.range' 1 1) [7, 7, 7, 7] =
      .returned [7, 7, 0x56B, 0xC9A] :=
  ⟨by decide,
    (decoders_position_only Endian.little sixBytes true).1.2.1 [] 2 2 [1, 0] (by decide),
    (decoders_position_only Endian.little sixBytes true).1.1 [] [9] 2 2 4 1 (by decide),
    (decoders_position_only Endian.little sixBytes true).1.2.2.1 [] 2 2 _ (by decide) 1 1
      [7, 7, 7, 7] (by decide) (by decide),
    by decide⟩

/-! ## The indices loaded -/

theorem Outcome.bind_assoc {α β γ : Type} (o : Outcome α) (f : α → Outcome β)
    (g : β → Outcome γ) : (o.bind f).bind g = o.bind (fun a => (f a).bind g) := by
  cases o <;> rfl

theorem Outcome.returned_bind {α β : Type} (a : α) (f : α → Outcome β) :
    (Outcome.returned a).bind f = f a := rfl

theorem loadAll_benign (data : List Byte) :
    ∀ idx : List Nat, (loadAll data idx).benign := by
  intro idx
  induction idx with
  | nil => trivial
  | cons i rest ih =>
    exact Outcome.benign_bind (load_benign _ _) fun _ =>
      Outcome.benign_bind ih fun _ => trivial

/-- A run of loads faults exactly when one of its indices is outside the
buffer. -/
theorem loadAll_outOfBounds_iff (data : List Byte) :
    ∀ idx : List Nat,
      loadAll data idx = .outOfBounds ↔ ∃ i, i ∈ idx ∧ data.length ≤ i := by
  intro idx
  induction idx with
  | nil =>
    constructor
    · intro h; cases h
    · rintro ⟨i, hi, _⟩; cases hi
  | cons j rest ih =>
    by_cases hj : j < data.length
    · have hl := load_of_lt data j hj
      rcases Outcome.benign_cases (loadAll_benign data rest) with ⟨cs, hcs⟩ | ho
      · have hno : ¬ ∃ i, i ∈ rest ∧ data.length ≤ i := by
          intro hex
          rw [ih.mpr hex] at hcs
          cases hcs
        constructor
        · intro h
          simp only [loadAll, hl, hcs, Outcome.bind] at h
          cases h
        · rintro ⟨i, hi, hlen⟩
          rcases List.mem_cons.mp hi with he | hin
          · omega
          · exact absurd ⟨i, hin, hlen⟩ hno
      · obtain ⟨i, hi, hlen⟩ := ih.mp ho
        constructor
        · intro _
          exact ⟨i, List.mem_cons_of_mem _ hi, hlen⟩
        · intro _
          simp only [loadAll, hl, ho, Outcome.bind]
    · have hl := load_of_le data j (by omega)
      constructor
      · intro _
        exact ⟨j, List.mem_cons_self _ _, by omega⟩
      · intro _
        simp only [loadAll, hl, Outcome.bind]

/-- The loads that fill `buf[3]` are the loads at `loadIndices12`. -/
theorem loadBuf12_eq_loadAll (data : List Byte) (addr3 : Nat) (do_swap : Bool) :
    loadBuf12 data addr3 do_swap = loadAll data (loadIndices12 addr3 do_swap) := by
  unfold loadBuf12 loadIndices12
  split
  · split <;>
      simp only [loadAll, Outcome.bind_assoc, Outcome.returned_bind]
  · simp only [loadAll, Outcome.bind_assoc, Outcome.returned_bind]

/-- The value of a sample cannot be computed from the buffer exactly when
one of the indices loaded for it is outside the buffer. -/
theorem decode12_val_outOfBounds_iff (data : List Byte) (do_swap : Bool) (n : Nat) :
    decode12_val data do_swap n = .outOfBounds ↔
      ∃ i, i ∈ loadIndices 12 do_swap n ∧ data.length ≤ i := by
  have hidx : loadIndices 12 do_swap n = loadIndices12 (n / 2 * 3) do_swap := rfl
  rw [hidx, ← loadAll_outOfBounds_iff, ← loadBuf12_eq_loadAll]
  constructor
  · intro h
    rcases Outcome.benign_cases (loadBuf12_benign data (n / 2 * 3) do_swap) with ⟨buf, hb⟩ | ho
    · exfalso
      have hlen : buf.length = 3 := by
        unfold loadBuf12 at hb
        split at hb
        · split at hb
          all_goals
            obtain ⟨_, _, hb⟩ := Outcome.bind_eq_returned hb
            obtain ⟨_, _, hb⟩ := Outcome.bind_eq_returned hb
            obtain ⟨_, _, hb⟩ := Outcome.bind_eq_returned hb
            injection hb with hb
            rw [← hb]
            rfl
        · obtain ⟨_, _, hb⟩ := Outcome.bind_eq_returned hb
          obtain ⟨_, _, hb⟩ := Outcome.bind_eq_returned hb
          obtain ⟨_, _, hb⟩ := Outcome.bind_eq_returned hb
          injection hb with hb
          rw [← hb]
          rfl
      unfold decode12_val at h
      simp only [hb, Outcome.bind] at h
      have h1 : (offsets12 (n % 2)).1 < buf.length := by
        unfold offsets12; split <;> simp only [hlen] <;> omega
      have h2 : (offsets12 (n % 2)).2 < buf.length := by
        unfold offsets12; split <;> simp only [hlen] <;> omega
      rw [load_of_lt _ _ h1, load_of_lt _ _ h2] at h
      cases h
    · exact ho
  · intro h
    unfold decode12_val
    simp only [h, Outcome.bind]

end TinyDNG
